import Mathlib

/-!
# A shallow embedding of the wesmaild core (framed transport and WML parser)

Bytes are modelled as natural numbers (`u8` values are `< 256`, which the
embedding does not need to enforce: every operation below only compares
bytes against literals or repackages them).  Rust slices threaded through the
parsers become `List Nat` suffixes; pointer subtraction such as
`cursor.as_ptr() - input.as_ptr()` becomes the length difference
`input.length - cursor.length`, which coincides with it whenever `cursor` is a
suffix of `input` (the only situation the source ever creates).

Fallible operations (`Result<_, ()>` in the source) are `Option` /
`Except Unit`.  Async I/O on the TCP read half is modelled by a list of
chunks: each `read_buf` call appends the next chunk; an empty chunk, or an
exhausted list, is a zero-length read (EOF).  The write half always succeeds
and the bytes written are returned as data.  The `tracing` / `println!`
logging statements in the source (including the `Effects` debug printer of
the WML crate) do not influence any returned value and are dropped.

Gzip is not re-implemented: compression/decompression functions are taken as
parameters (`gz : List Nat → List Nat` for the encoder,
`g : List Nat → Option (List Nat)` for `MultiGzDecoder::read_to_end`, whose
failure is `none`).
-/

namespace Wesmaild

/-- Rust `u32::from_be_bytes([a,b,c,d]) as usize`. -/
def beU32 (a b c d : Nat) : Nat := ((a * 256 + b) * 256 + c) * 256 + d

/-- Rust `u32::to_be_bytes n` (big-endian byte quadruple of `n % 2^32`). -/
def beBytes (n : Nat) : List Nat :=
  [n / 2 ^ 24 % 256, n / 2 ^ 16 % 256, n / 2 ^ 8 % 256, n % 256]

/-- The operation `Reader::read` from `src/stream.rs`, lines 22-56.

The loop body: if the staging buffer starts with a 4-byte big-endian length
`len` and at least `len` further bytes, decompress `buf[4..4+len]` with the
multi-member gzip decoder `g` and return the result (note that the source
never drains the staging buffer on this path); a decoder error is `Err(())`.
Otherwise read the next chunk from the socket into the buffer; a zero-length
read or an I/O error is `Err(())`.

Returns the payload together with the final staging buffer and the remaining
unread chunks of the source (the state the `Reader` keeps for the next call).
Recursion is on the chunk list: every loop iteration that does not return
consumes exactly one chunk. -/
-- The decompress-and-return step of the loop, factored out of the recursion:
-- run the decoder on `buf[4..4+len]`; on success return the payload and the
-- (undrained) buffer, on decoder failure return the unit error.
def Reader.decodeFrame (g : List Nat → Option (List Nat)) (buf rest : List Nat)
    (len : Nat) (src : List (List Nat)) :
    Except Unit (List Nat × List Nat × List (List Nat)) :=
  match g (rest.take len) with
  | some payload => .ok (payload, buf, src)
  | none => .error ()

/-- See the comment block above `Reader.decodeFrame`: this is the
read-accumulate loop of `Reader::read`. -/
def Reader.readAux (g : List Nat → Option (List Nat)) :
    List (List Nat) → List Nat → Except Unit (List Nat × List Nat × List (List Nat))
  | src, buf =>
    match buf with
    | a :: b :: c :: d :: rest =>
      if beU32 a b c d ≤ rest.length then
        Reader.decodeFrame g (a :: b :: c :: d :: rest) rest (beU32 a b c d) src
      else
        match src with
        | [] => .error ()
        | chunk :: src' =>
          if chunk.length ≠ 0 then Reader.readAux g src' (a :: b :: c :: d :: rest ++ chunk)
          else .error ()
    | buf =>
      match src with
      | [] => .error ()
      | chunk :: src' =>
        if chunk.length ≠ 0 then Reader.readAux g src' (buf ++ chunk)
        else .error ()

/-- The operation `Reader::read` with the conventional argument order
(staging buffer, then unread source chunks). -/
def Reader.read (g : List Nat → Option (List Nat)) (buf : List Nat)
    (src : List (List Nat)) : Except Unit (List Nat × List Nat × List (List Nat)) :=
  Reader.readAux g src buf

/-- The constant `SERVER_HANDSHAKE_RESPONSE`: `u32::to_be_bytes(42)`. -/
def SERVER_HANDSHAKE_RESPONSE : List Nat := beBytes 42

/-- The accumulation loop of `server_handshake` (`src/stream.rs`, lines 80-117),
with `buf` the bytes read so far.  Each iteration appends one chunk; then
- if the buffer now starts with `[0,0,0,0]`: send `SERVER_HANDSHAKE_RESPONSE`,
  drain the four handshake bytes, and hand back the reader staging buffer and
  the unread remainder of the source;
- otherwise, if at least four bytes are buffered: fail;
- otherwise keep reading.  A zero-length read fails.

The result is `(bytes written, reader staging buffer, remaining chunks)`. -/
def serverHandshakeAux :
    List (List Nat) → List Nat → Option (List Nat × List Nat × List (List Nat))
  | [], _buf => none
  | chunk :: src', buf =>
    if chunk.length ≠ 0 then
      match buf ++ chunk with
      | a :: b :: c :: d :: _ =>
        if a = 0 ∧ b = 0 ∧ c = 0 ∧ d = 0 then
          some (SERVER_HANDSHAKE_RESPONSE, (buf ++ chunk).drop 4, src')
        else none
      | _ => serverHandshakeAux src' (buf ++ chunk)
    else none

/-- The function `server_handshake`: starts with an empty accumulation buffer. -/
def serverHandshake (src : List (List Nat)) :
    Option (List Nat × List Nat × List (List Nat)) :=
  serverHandshakeAux src []

/-- Modelled from the spec: `Writer::write` is absent from `src/stream.rs`
(the `Writer` struct at lines 59-64 has only the `from_raw` constructor).
Per spec §4.2, `write(payload)` gzip-compresses the payload, prepends the
compressed length as a big-endian u32, and emits the concatenation on the
sink.  `gz` is the gzip encoder. -/
def Writer.write (gz : List Nat → List Nat) (payload : List Nat) : List Nat :=
  beBytes (gz payload).length ++ gz payload

/-! ## The WML parser (`wml/src/lib.rs`)

Byte literals used by the grammar: `9` = tab, `10` = newline, `32` = space,
`34` = doublequote, `35` = hash, `43` = plus, `44` = comma, `45` = hyphen,
`47` = slash, `60`/`62` = angle brackets, `61` = equals, `91`/`93` = square
brackets, `95` = underscore. -/

namespace WML

/-- The combinator `tagged(tag, input)`: strip the literal `tag` from the front or fail. -/
def tagged (tag input : List Nat) : Option (List Nat) :=
  if input.take tag.length = tag then some (input.drop tag.length) else none

/-- The scanning loop of `whitespace`: skip `b' ' | b'\t'`. -/
def wsScan : List Nat → List Nat
  | b :: rest => if b = 32 ∨ b = 9 then wsScan rest else b :: rest
  | [] => []

/-- The scanner `whitespace(input)`: consume `[ \t]+`, failing if nothing was consumed. -/
def whitespace (input : List Nat) : Option (List Nat) :=
  let cursor := wsScan input
  if 0 < input.length - cursor.length then some cursor else none

/-- The combinator `tagged_many0(b"\n".or(b"\t"), _)`: the only predicate the source ever
passes strips single `\n` or `\t` bytes greedily. -/
def skipNlTab : List Nat → List Nat
  | b :: rest => if b = 10 ∨ b = 9 then skipNlTab rest else b :: rest
  | [] => []

/-- The struct `StringKey { idx, len }`: a view into the document buffer. -/
structure StringKey where
  idx : Nat
  len : Nat
deriving DecidableEq, Repr

/-- Characters `[A-Za-z0-9_]`, the `wml_name` character class. -/
def nameByte (b : Nat) : Bool :=
  (97 ≤ b && b ≤ 122) || (65 ≤ b && b ≤ 90) || (48 ≤ b && b ≤ 57) || b = 95

/-- Characters `[A-Za-z0-9_-]`, the `textdomain` name character class. -/
def domainByte (b : Nat) : Bool := nameByte b || b = 45

/-- The scanning loop of `Name::parse`. -/
def nameScan : List Nat → List Nat
  | b :: rest => if nameByte b then nameScan rest else b :: rest
  | [] => []

/-- A `Name` wraps a `StringKey` over `[A-Za-z0-9_]+`. -/
structure Name where
  content : StringKey
deriving DecidableEq, Repr

/-- The parser `Name::parse` (lib.rs lines 221-236). -/
def Name.parse (input : List Nat) (off : Nat) : Option (List Nat × Name) :=
  let cursor := nameScan input
  let nameLen := input.length - cursor.length
  if 0 < nameLen then some (cursor, ⟨⟨off, nameLen⟩⟩) else none

/-- The scanning loop of `Text::parse`: stop at `+` or newline. -/
def textScan : List Nat → List Nat
  | a :: rest => if a = 43 ∨ a = 10 then a :: rest else textScan rest
  | [] => []

/-- Grammar rule `text := [^+\n]*`. -/
structure Text where
  content : StringKey
deriving DecidableEq, Repr

/-- The parser `Text::parse`: always succeeds (possibly with an empty window). -/
def Text.parse (input : List Nat) (off : Nat) : Option (List Nat × Text) :=
  let cursor := textScan input
  some (cursor, ⟨⟨off, input.length - cursor.length⟩⟩)

/-- The interior scanning loop of `WString::parse` (lib.rs lines 427-433).
It looks at a two-byte window `[a, b]` and advances by a single byte while
`a != '"' || (a == '"' && b == '"')`; with fewer than two bytes left it
stops.  Note the single-byte advance on a doubled quote, faithfully kept. -/
def wstrScan : List Nat → List Nat
  | a :: b :: rest =>
    if a ≠ 34 ∨ (a = 34 ∧ b = 34) then wstrScan (b :: rest) else a :: b :: rest
  | other => other

/-- Grammar rule `string := '"' ([^"] | '""')* '"'` (interior window, delimiters excluded). -/
structure WString where
  content : StringKey
deriving DecidableEq, Repr

/-- The parser `WString::parse` (lib.rs lines 424-441). -/
def WString.parse (input : List Nat) (off : Nat) : Option (List Nat × WString) :=
  match tagged [34] input with
  | none => none
  | some rest =>
    let cursor := wstrScan rest
    let content : StringKey :=
      ⟨input.length - rest.length + off, rest.length - cursor.length⟩
    match tagged [34] cursor with
    | none => none
    | some rest2 => some (rest2, ⟨content⟩)

/-- The interior scanning loop of `RawString::parse`: advance one byte while
the two-byte window is not `>>`. -/
def rawScan : List Nat → List Nat
  | a :: b :: rest =>
    if a ≠ 62 ∨ b ≠ 62 then rawScan (b :: rest) else a :: b :: rest
  | other => other

/-- Grammar rule `raw_string := '<<' ... '>>'` (interior window, delimiters excluded). -/
structure RawString where
  content : StringKey
deriving DecidableEq, Repr

/-- The parser `RawString::parse` (lib.rs lines 453-472). -/
def RawString.parse (input : List Nat) (off : Nat) : Option (List Nat × RawString) :=
  match tagged [60, 60] input with
  | none => none
  | some rest =>
    let cursor := rawScan rest
    let content : StringKey :=
      ⟨input.length - rest.length + off, rest.length - cursor.length⟩
    match tagged [62, 62] cursor with
    | none => none
    | some rest2 => some (rest2, ⟨content⟩)

/-- The bytes of the literal "#textdomain". -/
def TEXTDOMAIN_TAG : List Nat := [35, 116, 101, 120, 116, 100, 111, 109, 97, 105, 110]

/-- The scanning loop of `TextDomain::parse` over `[A-Za-z0-9_-]`. -/
def domainScan : List Nat → List Nat
  | b :: rest => if domainByte b then domainScan rest else b :: rest
  | [] => []

/-- A `TextDomain` wraps a `StringKey` over the domain name. -/
structure TextDomain where
  name : StringKey
deriving DecidableEq, Repr

/-- The parser `TextDomain::parse` (lib.rs lines 485-507): the literal `#textdomain`,
mandatory whitespace, a nonempty run of domain bytes, then a newline. -/
def TextDomain.parse (input : List Nat) (off : Nat) : Option (List Nat × TextDomain) :=
  match tagged TEXTDOMAIN_TAG input with
  | none => none
  | some rest0 =>
    match whitespace rest0 with
    | none => none
    | some rest =>
      let cursor := domainScan rest
      let len := rest.length - cursor.length
      if 0 < len then
        let name : StringKey := ⟨input.length - rest.length + off, len⟩
        match tagged [10] cursor with
        | none => none
        | some rest2 => some (rest2, ⟨name⟩)
      else none

/-- Grammar rule `wml_value_component := text | '_'? string | '_'? raw_string`
(Rust enum variants `Text` / `String` / `RawString`). -/
inductive ValueComponent where
  | text (t : Text)
  | str (s : WString)
  | raw (r : RawString)
deriving DecidableEq, Repr

/-- The parser `ValueComponent::parse` (lib.rs lines 355-383): optionally consume a
leading underscore, then try `WString`, then `RawString`; `Text` is consumed
from the original `input` only when no underscore was consumed, otherwise the
whole component fails. -/
def ValueComponent.parse (input : List Nat) (off : Nat) :
    Option (List Nat × ValueComponent) :=
  let p : Bool × List Nat × Nat :=
    match tagged [95] input with
    | some r => (true, r, off + 1)
    | none => (false, input, off)
  match WString.parse p.2.1 p.2.2 with
  | some (r, s) => some (r, .str s)
  | none =>
    match RawString.parse p.2.1 p.2.2 with
    | some (r, rs) => some (r, .raw rs)
    | none =>
      if !p.1 then
        match Text.parse input p.2.2 with
        | some (r, t) => some (r, .text t)
        | none => none
      else none

/-- A `wml_value`: a first component plus `(Option TextDomain, ValueComponent)`
continuations. -/
structure Value where
  first : ValueComponent
  rest : List (Option TextDomain × ValueComponent)
deriving DecidableEq, Repr

/-- The continuation loop of `Value::parse` (lib.rs lines 314-338).  After a
`+`, an optional newline, then an optional textdomain — which the source
parses from `input` (the start of the whole value!) while passing the offset
of the post-newline cursor, a bug kept faithfully here — then a mandatory
component.  `fuel` bounds the iteration count; each iteration consumes at
least the `+` byte. -/
def Value.parseLoop (input : List Nat) (off0 : Nat) :
    Nat → List Nat → List (Option TextDomain × ValueComponent) →
    Option (List Nat × List (Option TextDomain × ValueComponent))
  | 0, _, _ => none
  | fuel + 1, cursor, acc =>
    match tagged [43] cursor with
    | none => some (cursor, acc)
    | some rest =>
      let rd : List Nat × Option TextDomain :=
        match tagged [10] rest with
        | some restNl =>
          match TextDomain.parse input (input.length - restNl.length + off0) with
          | some (r, d) => (r, some d)
          | none => (restNl, none)
        | none => (rest, none)
      match ValueComponent.parse rd.1 (input.length - rd.1.length + off0) with
      | some (rest3, comp) => Value.parseLoop input off0 fuel rest3 (acc ++ [(rd.2, comp)])
      | none => none

/-- The parser `Value::parse` (lib.rs lines 306-341). -/
def Value.parse (fuel : Nat) (input : List Nat) (off : Nat) :
    Option (List Nat × Value) :=
  match ValueComponent.parse input off with
  | none => none
  | some (rest, first) =>
    match Value.parseLoop input off fuel rest [] with
    | some (cursor, vec) => some (cursor, ⟨first, vec⟩)
    | none => none

/-- Grammar rule `wml_key_sequence := wml_name (',' wml_name)*`. -/
structure KeySequence where
  first : Name
  names : List Name
deriving DecidableEq, Repr

/-- The comma loop of `KeySequence::parse`; a `,` not followed by a name
fails the whole production (the source's `?` operator). -/
def KeySequence.parseLoop (input : List Nat) (off0 : Nat) :
    Nat → List Nat → List Name → Option (List Nat × List Name)
  | 0, _, _ => none
  | fuel + 1, cursor, acc =>
    match tagged [44] cursor with
    | none => some (cursor, acc)
    | some rest =>
      match Name.parse rest (input.length - rest.length + off0) with
      | some (r, n) => KeySequence.parseLoop input off0 fuel r (acc ++ [n])
      | none => none

/-- The parser `KeySequence::parse` (lib.rs lines 276-292). -/
def KeySequence.parse (fuel : Nat) (input : List Nat) (off : Nat) :
    Option (List Nat × KeySequence) :=
  match Name.parse input off with
  | none => none
  | some (rest, first) =>
    match KeySequence.parseLoop input off fuel rest [] with
    | some (cursor, names) => some (cursor, ⟨first, names⟩)
    | none => none

/-- Grammar rule `wml_attribute := textdomain? wml_key_sequence '=' wml_value '\n'`. -/
structure Attribute where
  domain : Option TextDomain
  key_sequence : KeySequence
  value : Value
deriving DecidableEq, Repr

/-- The parser `Attribute::parse` (lib.rs lines 251-262). -/
def Attribute.parse (fuel : Nat) (input : List Nat) (off : Nat) :
    Option (List Nat × Attribute) :=
  let rd : List Nat × Option TextDomain :=
    match TextDomain.parse input off with
    | some (r, d) => (r, some d)
    | none => (input, none)
  match KeySequence.parse fuel rd.1 (input.length - rd.1.length + off) with
  | none => none
  | some (rest, ks) =>
    match tagged [61] rest with
    | none => none
    | some rest =>
      match Value.parse fuel rest (input.length - rest.length + off) with
      | none => none
      | some (rest, v) =>
        match tagged [10] rest with
        | none => none
        | some rest => some (rest, ⟨rd.2, ks, v⟩)

mutual
/-- Alternation `(wml_tag | wml_attribute)`. -/
inductive TagOrAttr where
  | tag : Tag → TagOrAttr
  | attr : Attribute → TagOrAttr
/-- Grammar rule `wml_tag := '[' wml_name ']' wml_doc '[/' wml_name ']'` with byte-equal
names; `content` is the children list. -/
inductive Tag where
  | mk : Name → List TagOrAttr → Tag
end

/-- The tag name component. -/
def Tag.name : Tag → Name
  | .mk n _ => n

/-- The children of a tag. -/
def Tag.content : Tag → List TagOrAttr
  | .mk _ c => c

mutual
/-- The parser `TagOrAttr::parse` (lib.rs lines 137-145): try `Tag`, then `Attribute`.
The structural fuel is decremented at every recursive step; it is an
embedding artifact bounding the recursion depth and loop iterations, both of
which consume input bytes in the source. -/
def TagOrAttr.parse : Nat → List Nat → Nat → Option (List Nat × TagOrAttr)
  | 0, _, _ => none
  | fuel + 1, input, off =>
    match Tag.parse fuel input off with
    | some (rest, t) => some (rest, .tag t)
    | none =>
      match Attribute.parse fuel input off with
      | some (rest, a) => some (rest, .attr a)
      | none => none

/-- The parser `Tag::parse` (lib.rs lines 165-202): `[`, name, `]`, a newline/tab skip,
the child loop, `[/`, a second name, the byte-for-byte window comparison of
the two names against `input` (fails on mismatch), `]`, a trailing skip. -/
def Tag.parse : Nat → List Nat → Nat → Option (List Nat × Tag)
  | 0, _, _ => none
  | fuel + 1, input, off =>
  match tagged [91] input with
  | none => none
  | some rest =>
    match Name.parse rest (input.length - rest.length + off) with
    | none => none
    | some (rest, name) =>
      match tagged [93] rest with
      | none => none
      | some rest =>
        let rest := skipNlTab rest
        match Tag.childLoop fuel input off rest [] with
        | none => none
        | some (cursor, content) =>
          match tagged [91, 47] cursor with
          | none => none
          | some rest =>
            match Name.parse rest (input.length - rest.length + off) with
            | none => none
            | some (rest, nameAgain) =>
              let nameC := (input.drop (name.content.idx - off)).take name.content.len
              let nameAgainBytes :=
                (input.drop (nameAgain.content.idx - off)).take nameAgain.content.len
              if nameC ≠ nameAgainBytes then none
              else
                match tagged [93] rest with
                | none => none
                | some rest => some (skipNlTab rest, Tag.mk name content)

/-- The child loop of `Tag::parse` (lib.rs lines 177-189): skip newlines and
tabs, then try `TagOrAttr`; on failure break with the post-skip cursor. -/
def Tag.childLoop : Nat → List Nat → Nat → List Nat → List TagOrAttr →
    Option (List Nat × List TagOrAttr)
  | 0, _, _, _, _ => none
  | fuel + 1, input, off, cursor, acc =>
    let cursor := skipNlTab cursor
    match TagOrAttr.parse fuel cursor (input.length - cursor.length + off) with
    | some (rest, x) => Tag.childLoop fuel input off rest (acc ++ [x])
    | none => some (cursor, acc)
end

/-- The struct `Doc { top, text }`: the top-level children and the owned buffer. -/
structure Doc where
  top : List TagOrAttr
  text : List Nat

/-- The top-level loop of `DocProcessor::parse`: `while let Ok(..) =
TagOrAttr::parse(..)` push and advance. -/
def docLoop (buf : List Nat) :
    Nat → List Nat → List TagOrAttr → List Nat × List TagOrAttr
  | 0, cursor, acc => (cursor, acc)
  | fuel + 1, cursor, acc =>
    match TagOrAttr.parse fuel cursor (buf.length - cursor.length) with
    | some (rest, x) => docLoop buf fuel rest (acc ++ [x])
    | none => (cursor, acc)

/-- The method `DocProcessor::parse` (lib.rs lines 539-559): run the top-level loop,
then require the cursor to sit at the end of the buffer
(`offset(cursor) == buf.len()`); otherwise fail.  The arena only affects
allocation and is not modelled; the fuel `buf.length + 1` bounds loop
iterations and recursion depth, both of which consume input. -/
def DocProcessor.parse (buf : List Nat) : Option Doc :=
  let r := docLoop buf (buf.length + 1) buf []
  if buf.length - r.1.length = buf.length then some ⟨r.2, buf⟩ else none

/-! ### Key collection

For the fidelity/balance claims the tree is flattened into its list of
`StringKey`s, each labelled with the kind of token that created it. -/

/-- The kind of token a `StringKey` was created for. -/
inductive TokenKind where
  | name
  | text
  | wstr
  | raw
  | domain
deriving DecidableEq, Repr

/-- The window `buffer[idx .. idx+len]` for a key. -/
def keyWindow (buf : List Nat) (k : StringKey) : List Nat := (buf.drop k.idx).take k.len

/-- What it means for a labelled key of a parsed document to be faithful to
the buffer: the window lies inside the buffer, and the bytes found there are
exactly the shape the token's production matched at that position — character
classes for names, domains and text, and the enclosing delimiters sitting
immediately around the window for the two delimited string forms. -/
def KeyFact (buf : List Nat) : TokenKind × StringKey → Prop
  | (.name, k) => k.idx + k.len ≤ buf.length ∧ 0 < k.len ∧
      ∀ b ∈ keyWindow buf k, nameByte b = true
  | (.domain, k) => k.idx + k.len ≤ buf.length ∧ 0 < k.len ∧
      ∀ b ∈ keyWindow buf k, domainByte b = true
  | (.text, k) => k.idx + k.len ≤ buf.length ∧
      ∀ b ∈ keyWindow buf k, b ≠ 43 ∧ b ≠ 10
  | (.wstr, k) => k.idx + k.len ≤ buf.length ∧ 1 ≤ k.idx ∧
      buf[k.idx - 1]? = some 34 ∧ buf[k.idx + k.len]? = some 34
  | (.raw, k) => k.idx + k.len ≤ buf.length ∧ 2 ≤ k.idx ∧
      buf[k.idx - 2]? = some 60 ∧ buf[k.idx - 1]? = some 60 ∧
      buf[k.idx + k.len]? = some 62 ∧ buf[k.idx + k.len + 1]? = some 62

/-- Keys of an optional textdomain annotation. -/
def optDomainKeys : Option TextDomain → List (TokenKind × StringKey)
  | none => []
  | some d => [(.domain, d.name)]

/-- The labelled key of a value component. -/
def ValueComponent.keysK : ValueComponent → List (TokenKind × StringKey)
  | .text t => [(.text, t.content)]
  | .str s => [(.wstr, s.content)]
  | .raw r => [(.raw, r.content)]

/-- All labelled keys of a value, continuation domains included. -/
def Value.keysK (v : Value) : List (TokenKind × StringKey) :=
  v.first.keysK ++ (v.rest.map (fun pc => optDomainKeys pc.1 ++ pc.2.keysK)).flatten

/-- All labelled keys of a key sequence. -/
def KeySequence.keysK (ks : KeySequence) : List (TokenKind × StringKey) :=
  (.name, ks.first.content) :: ks.names.map (fun n => (.name, n.content))

/-- All labelled keys of an attribute. -/
def Attribute.keysK (a : Attribute) : List (TokenKind × StringKey) :=
  optDomainKeys a.domain ++ a.key_sequence.keysK ++ a.value.keysK

mutual
/-- All labelled keys under a tag-or-attribute node. -/
def TagOrAttr.keysK : TagOrAttr → List (TokenKind × StringKey)
  | .tag t => Tag.keysK t
  | .attr a => a.keysK
/-- All labelled keys under a tag: its name plus its children's keys. -/
def Tag.keysK : Tag → List (TokenKind × StringKey)
  | .mk n content => (.name, n.content) :: keysKList content
/-- All labelled keys of a forest of nodes. -/
def keysKList : List TagOrAttr → List (TokenKind × StringKey)
  | [] => []
  | x :: xs => TagOrAttr.keysK x ++ keysKList xs
end

/-- All labelled keys of a parsed document. -/
def Doc.keysK (d : Doc) : List (TokenKind × StringKey) := keysKList d.top

/-- Statement that `r` is a suffix of `l`, in the drop-index form the parsers produce. -/
def SufOf (r l : List Nat) : Prop := ∃ n, r = l.drop n

/-- The parser position invariant: `l` is the suffix of the document buffer
starting at absolute offset `off`.  Every parser in the source is called
with `(slice, offset)` pairs satisfying this, except the one miscalled
textdomain parse inside `Value::parse` (see `Value.parseLoop`), which never
succeeds in context. -/
def At (buf : List Nat) (off : Nat) (l : List Nat) : Prop :=
  off ≤ buf.length ∧ l = buf.drop off

end WML

/-! ## Basic lemmas -/

namespace WML

theorem tagged_drop {t input rest : List Nat} (h : tagged t input = some rest) :
    rest = input.drop t.length := by
  unfold tagged at h
  split at h
  · cases h; rfl
  · cases h

theorem tagged_some {t input rest : List Nat} (h : tagged t input = some rest) :
    input = t ++ rest := by
  have hd := tagged_drop h
  have hsplit : input = input.take t.length ++ input.drop t.length :=
    (List.take_append_drop t.length input).symm
  unfold tagged at h
  split at h
  · rename_i ht
    rw [ht] at hsplit
    rw [hd]
    exact hsplit
  · cases h

theorem tagged_append (t q : List Nat) : tagged t (t ++ q) = some q := by
  simp [tagged, List.take_left, List.drop_left]

theorem wsScan_decomp (l : List Nat) :
    ∃ p, l = p ++ wsScan l ∧ ∀ b ∈ p, b = 32 ∨ b = 9 := by
  induction l with
  | nil => exact ⟨[], rfl, by simp⟩
  | cons x xs ih =>
    by_cases h : x = 32 ∨ x = 9
    · obtain ⟨p, hp, hb⟩ := ih
      refine ⟨x :: p, by simpa [wsScan, h] using hp, ?_⟩
      intro b hb2
      rcases List.mem_cons.mp hb2 with h2 | h2
      · exact h2 ▸ h
      · exact hb b h2
    · exact ⟨[], by simp [wsScan, h], by simp⟩

theorem skipNlTab_decomp (l : List Nat) :
    ∃ p, l = p ++ skipNlTab l ∧ ∀ b ∈ p, b = 10 ∨ b = 9 := by
  induction l with
  | nil => exact ⟨[], rfl, by simp⟩
  | cons x xs ih =>
    by_cases h : x = 10 ∨ x = 9
    · obtain ⟨p, hp, hb⟩ := ih
      refine ⟨x :: p, by simpa [skipNlTab, h] using hp, ?_⟩
      intro b hb2
      rcases List.mem_cons.mp hb2 with h2 | h2
      · exact h2 ▸ h
      · exact hb b h2
    · exact ⟨[], by simp [skipNlTab, h], by simp⟩

theorem nameScan_decomp (l : List Nat) :
    ∃ p, l = p ++ nameScan l ∧ ∀ b ∈ p, nameByte b = true := by
  induction l with
  | nil => exact ⟨[], rfl, by simp⟩
  | cons x xs ih =>
    by_cases h : nameByte x
    · obtain ⟨p, hp, hb⟩ := ih
      refine ⟨x :: p, by simpa [nameScan, h] using hp, ?_⟩
      intro b hb2
      rcases List.mem_cons.mp hb2 with h2 | h2
      · exact h2 ▸ h
      · exact hb b h2
    · exact ⟨[], by simp [nameScan, h], by simp⟩

theorem domainScan_decomp (l : List Nat) :
    ∃ p, l = p ++ domainScan l ∧ ∀ b ∈ p, domainByte b = true := by
  induction l with
  | nil => exact ⟨[], rfl, by simp⟩
  | cons x xs ih =>
    by_cases h : domainByte x
    · obtain ⟨p, hp, hb⟩ := ih
      refine ⟨x :: p, by simpa [domainScan, h] using hp, ?_⟩
      intro b hb2
      rcases List.mem_cons.mp hb2 with h2 | h2
      · exact h2 ▸ h
      · exact hb b h2
    · exact ⟨[], by simp [domainScan, h], by simp⟩

theorem textScan_decomp (l : List Nat) :
    ∃ p, l = p ++ textScan l ∧ ∀ b ∈ p, ¬(b = 43 ∨ b = 10) := by
  induction l with
  | nil => exact ⟨[], rfl, by simp⟩
  | cons x xs ih =>
    by_cases h : x = 43 ∨ x = 10
    · exact ⟨[], by simp [textScan, h], by simp⟩
    · obtain ⟨p, hp, hb⟩ := ih
      refine ⟨x :: p, by simpa [textScan, h] using hp, ?_⟩
      intro b hb2
      rcases List.mem_cons.mp hb2 with h2 | h2
      · exact h2 ▸ h
      · exact hb b h2

theorem wstrScan_drop (l : List Nat) : ∃ n, n ≤ l.length ∧ wstrScan l = l.drop n := by
  induction l using wstrScan.induct with
  | case1 a b rest h ih =>
    obtain ⟨n, hn, he⟩ := ih
    refine ⟨n + 1, ?_, by simpa [wstrScan, h] using he⟩
    simpa using Nat.succ_le_succ hn
  | case2 a b rest h => exact ⟨0, Nat.zero_le _, by simp [wstrScan, h]⟩
  | case3 other h =>
    refine ⟨0, Nat.zero_le _, ?_⟩
    cases other with
    | nil => rfl
    | cons x xs => cases xs with
      | nil => rfl
      | cons y ys => exact absurd rfl (h x y ys)

theorem rawScan_drop (l : List Nat) : ∃ n, n ≤ l.length ∧ rawScan l = l.drop n := by
  induction l using rawScan.induct with
  | case1 a b rest h ih =>
    obtain ⟨n, hn, he⟩ := ih
    refine ⟨n + 1, ?_, by simpa [rawScan, h] using he⟩
    simpa using Nat.succ_le_succ hn
  | case2 a b rest h => exact ⟨0, Nat.zero_le _, by simp [rawScan, h]⟩
  | case3 other h =>
    refine ⟨0, Nat.zero_le _, ?_⟩
    cases other with
    | nil => rfl
    | cons x xs => cases xs with
      | nil => rfl
      | cons y ys => exact absurd rfl (h x y ys)

end WML

/-! ## Transport claims -/

/-- Reconstructing a u32 from its big-endian bytes. -/
theorem beU32_beBytes {n : Nat} (h : n < 2 ^ 32) :
    beU32 (n / 2 ^ 24 % 256) (n / 2 ^ 16 % 256) (n / 2 ^ 8 % 256) (n % 256) = n := by
  unfold beU32
  omega

/-- C1: the claim says a `Reader::read` call on a staging buffer holding a
complete frame decompresses it, *drains the 4+len frame bytes from the
front*, and that successive reads therefore deliver successive frames in
order.  The source never drains: with two one-byte frames `[9]` and `[8]`
buffered, the read returns payload `[9]` and leaves the staging buffer
untouched (still starting with the first frame), so a second read returns
`[9]` again even though the second frame would decode to `[8]`.  (The
decoder is instantiated with the identity, standing in for gzip.) -/
theorem C1_read_never_drains :
    Reader.read (fun l => some l) [0, 0, 0, 1, 9, 0, 0, 0, 1, 8] []
        = .ok ([9], [0, 0, 0, 1, 9, 0, 0, 0, 1, 8], [])
      ∧ Reader.read (fun l => some l) [0, 0, 0, 1, 8] []
        = .ok ([8], [0, 0, 0, 1, 8], []) :=
  ⟨rfl, rfl⟩

/-- C10: `Reader::read` returns the unit error whenever the underlying
source reports a zero-length read, even when the staging buffer holds no
partial frame — in particular on an empty staging buffer.  The hypothesis
says no complete frame is buffered (vacuously true for fewer than four
bytes); the conclusion covers both an exhausted source and a source whose
next read returns zero bytes.  The error type is `Except Unit`, so EOF at a
frame boundary and mid-frame truncation produce the same single value. -/
theorem C10_read_eof_unit_error (g : List Nat → Option (List Nat))
    (buf : List Nat) (src' : List (List Nat))
    (h : ∀ a b c d rest, buf = a :: b :: c :: d :: rest → rest.length < beU32 a b c d) :
    Reader.read g buf [] = .error () ∧ Reader.read g buf ([] :: src') = .error () := by
  rcases buf with _ | ⟨a, _ | ⟨b, _ | ⟨c, _ | ⟨d, rest⟩⟩⟩⟩
  · exact ⟨rfl, rfl⟩
  · exact ⟨rfl, rfl⟩
  · exact ⟨rfl, rfl⟩
  · exact ⟨rfl, rfl⟩
  · have hlt := h a b c d rest rfl
    constructor <;>
      simp [Reader.read, Reader.readAux, Nat.not_le.mpr hlt]

/-- Witness for C10 at the empty staging buffer. -/
theorem C10_read_eof_unit_error_witness :
    Reader.read (fun _ => none) [] [] = .error ()
      ∧ Reader.read (fun _ => none) [] [[]] = .error () :=
  C10_read_eof_unit_error (fun _ => none) [] [] (by intro a b c d rest h; cases h)

/-- A read on a staging buffer that holds a complete frame returns the
decoded payload without touching the source, whatever the frame length. -/
theorem read_complete_frame (g : List Nat → Option (List Nat)) (a b c d : Nat)
    (rest payload : List Nat) (src : List (List Nat))
    (hlen : beU32 a b c d ≤ rest.length)
    (hg : g (rest.take (beU32 a b c d)) = some payload) :
    Reader.read g (a :: b :: c :: d :: rest) src
      = .ok (payload, a :: b :: c :: d :: rest, src) := by
  rw [Reader.read, Reader.readAux.eq_def]
  simp [hlen, Reader.decodeFrame, hg]

/-- C7 counterexample: the claim says a decoded length prefix exceeding the
16 MiB per-frame maximum makes `Reader::read` signal `FrameTooLarge` before
reading further.  The source has no such guard: with a buffered frame whose
length prefix decodes to `2^24 + 1` (one byte over 16 MiB) the read
*succeeds*, returning the decoded payload instead of any error. -/
theorem C7_no_frame_cap_counterexample :
    Reader.read (fun _ => some [1]) (1 :: 0 :: 0 :: 1 :: List.replicate (2 ^ 24 + 1) 0) []
      = .ok ([1], 1 :: 0 :: 0 :: 1 :: List.replicate (2 ^ 24 + 1) 0, []) := by
  refine read_complete_frame _ 1 0 0 1 _ [1] [] ?_ rfl
  rw [List.length_replicate]
  norm_num [beU32]

/-- C7 amended: `Reader::read` imposes no per-frame maximum.  Whatever the
decoded length prefix — here anything strictly larger than 16 MiB — once the
frame is fully buffered and the decoder accepts it, the read returns the
payload normally; no `FrameTooLarge` error exists (the error type carries no
kinds at all). -/
theorem C7_no_frame_cap (g : List Nat → Option (List Nat)) (a b c d : Nat)
    (rest payload : List Nat) (src : List (List Nat))
    (hbig : 2 ^ 24 < beU32 a b c d)
    (hlen : beU32 a b c d ≤ rest.length)
    (hg : g (rest.take (beU32 a b c d)) = some payload) :
    Reader.read g (a :: b :: c :: d :: rest) src
      = .ok (payload, a :: b :: c :: d :: rest, src) :=
  read_complete_frame g a b c d rest payload src hlen hg

/-- Witness for C7 amended, at a frame one byte over 16 MiB. -/
theorem C7_no_frame_cap_witness :
    2 ^ 24 < beU32 1 0 0 1
      ∧ Reader.read (fun _ => some [1]) (1 :: 0 :: 0 :: 1 :: List.replicate (2 ^ 24 + 1) 0) []
          = .ok ([1], 1 :: 0 :: 0 :: 1 :: List.replicate (2 ^ 24 + 1) 0, []) :=
  ⟨by norm_num [beU32],
    C7_no_frame_cap (fun _ => some [1]) 1 0 0 1 (List.replicate (2 ^ 24 + 1) 0) [1] []
      (by norm_num [beU32]) (by rw [List.length_replicate]; norm_num [beU32]) rfl⟩

/-- The handshake accumulation loop, specified.  With every chunk nonempty
and at least four bytes arriving in total: if the first four bytes of the
(already-buffered plus incoming) stream are `[0,0,0,0]` the loop succeeds
after some number `k` of reads, sends `SERVER_HANDSHAKE_RESPONSE`, and hands
the reader exactly the received bytes beyond the first four; otherwise it
fails. -/
theorem serverHandshakeAux_spec (src : List (List Nat)) :
    ∀ buf, buf.length < 4 → (∀ c ∈ src, c ≠ []) →
      4 ≤ buf.length + src.flatten.length →
      (((buf ++ src.flatten).take 4 = [0, 0, 0, 0] →
        ∃ k, serverHandshakeAux src buf
            = some (SERVER_HANDSHAKE_RESPONSE, (buf ++ (src.take k).flatten).drop 4, src.drop k)
          ∧ 4 ≤ (buf ++ (src.take k).flatten).length)
      ∧ ((buf ++ src.flatten).take 4 ≠ [0, 0, 0, 0] → serverHandshakeAux src buf = none)) := by
  induction src with
  | nil =>
    intro buf hb _ hlen
    simp only [List.flatten_nil, List.length_nil, Nat.add_zero] at hlen
    omega
  | cons c src' ih =>
    intro buf hb hne hlen
    have hc : c ≠ [] := hne c (by simp)
    have hclen : c.length ≠ 0 := fun h => hc (List.length_eq_zero.mp h)
    have hflat : (c :: src').flatten = c ++ src'.flatten := by simp
    -- the recursive ("fewer than four bytes yet") situation, as a reusable fact
    have short : ∀ a' : List Nat, buf ++ c = a' → a'.length < 4 →
        serverHandshakeAux (c :: src') buf = serverHandshakeAux src' (buf ++ c) := by
      intro a' ha' hlt4
      rw [serverHandshakeAux, if_pos hclen]
      rcases a' with _ | ⟨x, _ | ⟨y, _ | ⟨z, _ | ⟨w, t⟩⟩⟩⟩
      · rw [ha']
      · rw [ha']
      · rw [ha']
      · rw [ha']
      · exact absurd hlt4 (by simp only [List.length_cons]; omega)
    have recurse : (buf ++ c).length < 4 →
        (((buf ++ (c :: src').flatten).take 4 = [0, 0, 0, 0] →
          ∃ k, serverHandshakeAux (c :: src') buf
              = some (SERVER_HANDSHAKE_RESPONSE,
                  (buf ++ ((c :: src').take k).flatten).drop 4, (c :: src').drop k)
            ∧ 4 ≤ (buf ++ ((c :: src').take k).flatten).length)
        ∧ ((buf ++ (c :: src').flatten).take 4 ≠ [0, 0, 0, 0] →
            serverHandshakeAux (c :: src') buf = none)) := by
      intro hlt
      have hstep := short (buf ++ c) rfl hlt
      have hlen' : 4 ≤ (buf ++ c).length + src'.flatten.length := by
        rw [hflat] at hlen
        simp only [List.length_append] at hlen ⊢
        omega
      have hih := ih (buf ++ c) hlt (fun x hx => hne x (by simp [hx])) hlen'
      have hrw : buf ++ (c :: src').flatten = (buf ++ c) ++ src'.flatten := by
        rw [hflat, List.append_assoc]
      constructor
      · intro h4
        rw [hrw] at h4
        obtain ⟨k, hk, hk4⟩ := hih.1 h4
        refine ⟨k + 1, ?_, ?_⟩
        · rw [hstep, hk]
          simp [List.append_assoc]
        · simpa [List.append_assoc] using hk4
      · intro h4
        rw [hrw] at h4
        rw [hstep]
        exact hih.2 h4
    rcases hbc : buf ++ c with _ | ⟨a, _ | ⟨b2, _ | ⟨c2, _ | ⟨d, t⟩⟩⟩⟩
    · exact absurd (List.append_eq_nil.mp hbc).2 hc
    · exact recurse (by rw [hbc]; simp)
    · exact recurse (by rw [hbc]; simp)
    · exact recurse (by rw [hbc]; simp)
    -- at least four bytes accumulated: the handshake is decided now
    have h4len : 4 ≤ (buf ++ c).length := by rw [hbc]; simp
    have htake : ∀ q : List Nat, ((buf ++ c) ++ q).take 4 = [a, b2, c2, d] := by
      intro q
      rw [List.take_append_of_le_length h4len, hbc]
      rfl
    by_cases h0 : a = 0 ∧ b2 = 0 ∧ c2 = 0 ∧ d = 0
    · have hsome : serverHandshakeAux (c :: src') buf
          = some (SERVER_HANDSHAKE_RESPONSE, (buf ++ c).drop 4, src') := by
        rw [serverHandshakeAux, if_pos hclen, hbc]
        dsimp only
        rw [if_pos h0]
      constructor
      · intro _
        refine ⟨1, ?_, ?_⟩
        · rw [hsome]
          simp
        · simpa using h4len
      · intro h4
        exfalso
        apply h4
        rw [hflat, ← List.append_assoc, htake]
        obtain ⟨rfl, rfl, rfl, rfl⟩ := h0
        rfl
    · have hnone : serverHandshakeAux (c :: src') buf = none := by
        rw [serverHandshakeAux, if_pos hclen, hbc]
        dsimp only
        rw [if_neg h0]
      constructor
      · intro h4
        exfalso
        rw [hflat, ← List.append_assoc, htake] at h4
        simp only [List.cons.injEq, and_true] at h4
        exact h0 ⟨h4.1, h4.2.1, h4.2.2.1, h4.2.2.2⟩
      · intro _
        exact hnone

/-- C3: `server_handshake` succeeds exactly when the first four bytes
received are `[0,0,0,0]` (regardless of how the source chunks them, all
chunks nonempty, at least four bytes arriving): on success it has written
`be_u32 42 = [0,0,0,42]` and returns a reader whose staging buffer holds
exactly the bytes received beyond the initial four (the unread chunks stay
in the source); on any other first four bytes it fails with no pair. -/
theorem C3_server_handshake (src : List (List Nat))
    (hne : ∀ c ∈ src, c ≠ [])
    (hlen : 4 ≤ src.flatten.length) :
    (src.flatten.take 4 = [0, 0, 0, 0] →
      ∃ k, serverHandshake src
          = some (SERVER_HANDSHAKE_RESPONSE, ((src.take k).flatten).drop 4, src.drop k)
        ∧ 4 ≤ ((src.take k).flatten).length)
    ∧ (src.flatten.take 4 ≠ [0, 0, 0, 0] → serverHandshake src = none)
    ∧ SERVER_HANDSHAKE_RESPONSE = [0, 0, 0, 42] := by
  have h := serverHandshakeAux_spec src [] (by simp) hne (by simpa using hlen)
  simp only [List.nil_append] at h
  exact ⟨h.1, h.2, rfl⟩

/-- Witness for C3: the handshake `[0,0,0,0]` split across chunks `[0,0]`
and `[0,0,5]`; the reader's staging buffer keeps the surplus byte `5`. -/
theorem C3_server_handshake_witness :
    (∀ c ∈ ([[0, 0], [0, 0, 5]] : List (List Nat)), c ≠ [])
      ∧ 4 ≤ ([[0, 0], [0, 0, 5]] : List (List Nat)).flatten.length
      ∧ (∃ k, serverHandshake [[0, 0], [0, 0, 5]]
            = some (SERVER_HANDSHAKE_RESPONSE,
                ((([[0, 0], [0, 0, 5]] : List (List Nat)).take k).flatten).drop 4,
                ([[0, 0], [0, 0, 5]] : List (List Nat)).drop k)
          ∧ 4 ≤ ((([[0, 0], [0, 0, 5]] : List (List Nat)).take k).flatten).length) := by
  have h := C3_server_handshake [[0, 0], [0, 0, 5]] (by decide) (by decide)
  exact ⟨by decide, by decide, h.1 (by decide)⟩

/-- C2 (spec-modelled writer): `Writer::write` emits the gzip-compressed
payload prefixed by its length as a big-endian u32, and a reader over
exactly those emitted bytes returns the original payload.  `gz`/`g` are the
gzip encoder and decoder, assumed to round-trip on `p` and to produce a
compressed size below `2^32`; the 16 MiB payload bound of the claim is the
first hypothesis. -/
theorem C2_frame_roundtrip (gz : List Nat → List Nat) (g : List Nat → Option (List Nat))
    (p : List Nat) (hsize : p.length ≤ 2 ^ 24)
    (hlen : (gz p).length < 2 ^ 32)
    (hg : g (gz p) = some p) :
    Writer.write gz p = beBytes (gz p).length ++ gz p
      ∧ Reader.read g (Writer.write gz p) [] = .ok (p, Writer.write gz p, []) := by
  refine ⟨rfl, ?_⟩
  have hbe := beU32_beBytes hlen
  have h := read_complete_frame g ((gz p).length / 2 ^ 24 % 256) ((gz p).length / 2 ^ 16 % 256)
    ((gz p).length / 2 ^ 8 % 256) ((gz p).length % 256) (gz p) p []
    (by rw [hbe]) (by rw [hbe, List.take_length]; exact hg)
  simpa only [Writer.write, beBytes, List.cons_append, List.nil_append] using h

/-- Witness for C2 with the identity codec and payload `[7]`. -/
theorem C2_frame_roundtrip_witness :
    [(7 : Nat)].length ≤ 2 ^ 24
      ∧ Writer.write (fun l => l) [7] = beBytes 1 ++ [7]
      ∧ Reader.read some (Writer.write (fun l => l) [7]) []
          = .ok ([7], Writer.write (fun l => l) [7], []) := by
  have h := C2_frame_roundtrip (fun l => l) some [7] (by norm_num) (by norm_num) rfl
  exact ⟨by norm_num, h.1, h.2⟩

/-! ## WML claims settled by direct evaluation -/

namespace WML

/-- C4: the claim says `WString` parsing treats a doubled quote as an
escaped literal quote, so parsing `"a""b"` should span the interior
`a""b` (four bytes) and consume all six bytes.  The source's interior loop
advances only one byte over an escape pair, so the scan stops *inside* the
pair: on `"a""b"` (bytes `[34,97,34,34,98,34]`) it produces the two-byte
interior `a"` (key `idx 1, len 2`) and leaves `b"` unconsumed — the second
quote of the pair is eaten as the closing delimiter. -/
theorem C4_wstring_escape_broken :
    WString.parse [34, 97, 34, 34, 98, 34] 0
        = some ([98, 34], ⟨⟨1, 2⟩⟩)
      ∧ keyWindow [34, 97, 34, 34, 98, 34] ⟨1, 2⟩ = [97, 34] :=
  ⟨rfl, rfl⟩

/-- C5: the claim says an underscore not followed by a quoted or raw-string
body falls back to `Text` including the underscore (grammar
`value_component := '_'? string | '_'? raw_string | text` with
`text := [^+\n]*`).  The source instead fails outright once the underscore
has been consumed and both string forms fail: `_foo` (bytes
`[95,102,111,111]`) parses to no component at all, even though `Text::parse`
itself accepts exactly those four bytes. -/
theorem C5_underscore_fallback_missing :
    ValueComponent.parse [95, 102, 111, 111] 0 = none
      ∧ Text.parse [95, 102, 111, 111] 0 = some ([], ⟨⟨0, 4⟩⟩) :=
  ⟨rfl, rfl⟩

/-- C6: the claim says a continuation `+` followed by newline and a
`#textdomain d` annotation records the continuation with that domain
attached and parses the next component after the annotation.  The source
passes `input` — the start of the whole value — instead of the current
cursor to `TextDomain::parse`, so the annotation is never recognised: on
the value `"a"+\n#textdomain d\n"b"` the parse yields first component
`"a"`, then a single continuation with *no* domain whose component is the
`Text` window `#textdomain d` (key `idx 5, len 13`), stopping before the
newline; the component `"b"` is never reached. -/
theorem C6_continuation_domain_lost :
    Value.parse 23
        [34, 97, 34, 43, 10, 35, 116, 101, 120, 116, 100, 111, 109, 97, 105, 110,
          32, 100, 10, 34, 98, 34] 0
      = some ([10, 34, 98, 34],
          ⟨.str ⟨⟨1, 1⟩⟩, [(none, .text ⟨⟨5, 13⟩⟩)]⟩) :=
  rfl

/-! ### Suffix (consumption) lemmas: every parser returns a suffix of its
input, in the sense of `List.drop`. -/

theorem sufOf_refl (l : List Nat) : SufOf l l := ⟨0, rfl⟩

theorem sufOf_trans {l r s : List Nat} (h1 : SufOf r l) (h2 : SufOf s r) : SufOf s l := by
  obtain ⟨n, rfl⟩ := h1
  obtain ⟨m, rfl⟩ := h2
  exact ⟨n + m, by rw [List.drop_drop]⟩

theorem suf_of_append {p r l : List Nat} (h : l = p ++ r) : SufOf r l :=
  ⟨p.length, by rw [h, List.drop_left]⟩

theorem wsScan_suf (l : List Nat) : SufOf (wsScan l) l := by
  obtain ⟨p, hp, _⟩ := wsScan_decomp l
  exact suf_of_append hp

theorem skipNlTab_suf (l : List Nat) : SufOf (skipNlTab l) l := by
  obtain ⟨p, hp, _⟩ := skipNlTab_decomp l
  exact suf_of_append hp

theorem nameScan_suf (l : List Nat) : SufOf (nameScan l) l := by
  obtain ⟨p, hp, _⟩ := nameScan_decomp l
  exact suf_of_append hp

theorem textScan_suf (l : List Nat) : SufOf (textScan l) l := by
  obtain ⟨p, hp, _⟩ := textScan_decomp l
  exact suf_of_append hp

theorem domainScan_suf (l : List Nat) : SufOf (domainScan l) l := by
  obtain ⟨p, hp, _⟩ := domainScan_decomp l
  exact suf_of_append hp

theorem wstrScan_suf (l : List Nat) : SufOf (wstrScan l) l := by
  obtain ⟨n, _, h⟩ := wstrScan_drop l
  exact ⟨n, h⟩

theorem rawScan_suf (l : List Nat) : SufOf (rawScan l) l := by
  obtain ⟨n, _, h⟩ := rawScan_drop l
  exact ⟨n, h⟩

theorem tagged_suf {t input rest : List Nat} (h : tagged t input = some rest) :
    SufOf rest input :=
  ⟨t.length, tagged_drop h⟩

/-- The full payload of a successful `Name::parse`: the key records the
offset it was called with and the (positive) number of name bytes scanned,
and the input splits as those bytes followed by the rest. -/
theorem nameParse_decomp {input : List Nat} {off : Nat} {rest : List Nat} {n : Name}
    (h : Name.parse input off = some (rest, n)) :
    n.content.idx = off ∧ rest = nameScan input
      ∧ ∃ p, input = p ++ rest ∧ p.length = n.content.len ∧ 0 < p.length
        ∧ ∀ b ∈ p, nameByte b = true := by
  unfold Name.parse at h
  dsimp only at h
  split at h
  · rename_i hpos
    obtain ⟨p, hp, hb⟩ := nameScan_decomp input
    cases h
    refine ⟨rfl, rfl, p, hp, ?_, ?_, hb⟩
    · have := congrArg List.length hp
      simp only [List.length_append] at this
      simp only []
      omega
    · have := congrArg List.length hp
      simp only [List.length_append] at this
      omega
  · cases h

theorem nameParse_suf {input : List Nat} {off : Nat} {rest : List Nat} {n : Name}
    (h : Name.parse input off = some (rest, n)) : SufOf rest input := by
  obtain ⟨_, _, p, hp, _⟩ := nameParse_decomp h
  exact suf_of_append hp

theorem textParse_suf {input : List Nat} {off : Nat} {rest : List Nat} {t : Text}
    (h : Text.parse input off = some (rest, t)) : SufOf rest input := by
  unfold Text.parse at h
  cases h
  exact textScan_suf input

theorem whitespace_decomp {input rest : List Nat} (h : whitespace input = some rest) :
    rest = wsScan input ∧ ∃ p, input = p ++ rest ∧ 0 < p.length ∧ ∀ b ∈ p, b = 32 ∨ b = 9 := by
  unfold whitespace at h
  dsimp only at h
  split at h
  · rename_i hpos
    cases h
    obtain ⟨p, hp, hb⟩ := wsScan_decomp input
    refine ⟨rfl, p, hp, ?_, hb⟩
    have := congrArg List.length hp
    simp only [List.length_append] at this
    omega
  · cases h

theorem whitespace_suf {input rest : List Nat} (h : whitespace input = some rest) :
    SufOf rest input := by
  obtain ⟨_, p, hp, _⟩ := whitespace_decomp h
  exact suf_of_append hp

theorem wstringParse_suf {input : List Nat} {off : Nat} {rest : List Nat} {s : WString}
    (h : WString.parse input off = some (rest, s)) : SufOf rest input := by
  unfold WString.parse at h
  rcases h1 : tagged [34] input with _ | rest1
  all_goals rw [h1] at h
  · cases h
  dsimp only at h
  rcases h2 : tagged [34] (wstrScan rest1) with _ | rest2
  all_goals rw [h2] at h
  · cases h
  cases h
  exact sufOf_trans (tagged_suf h1)
    (sufOf_trans (wstrScan_suf rest1) (tagged_suf h2))

theorem rawstringParse_suf {input : List Nat} {off : Nat} {rest : List Nat} {r : RawString}
    (h : RawString.parse input off = some (rest, r)) : SufOf rest input := by
  unfold RawString.parse at h
  rcases h1 : tagged [60, 60] input with _ | rest1
  all_goals rw [h1] at h
  · cases h
  dsimp only at h
  rcases h2 : tagged [62, 62] (rawScan rest1) with _ | rest2
  all_goals rw [h2] at h
  · cases h
  cases h
  exact sufOf_trans (tagged_suf h1)
    (sufOf_trans (rawScan_suf rest1) (tagged_suf h2))

/-- The full payload of a successful `TextDomain::parse`: the literal
`#textdomain`, a nonempty run of blanks, a nonempty run of domain bytes,
a newline, and the returned key sits at offset-plus-eleven-plus-blanks with
the domain run as its window. -/
theorem textdomainParse_decomp {input : List Nat} {off : Nat} {rest : List Nat}
    {d : TextDomain} (h : TextDomain.parse input off = some (rest, d)) :
    ∃ ws ds tail, input = TEXTDOMAIN_TAG ++ (ws ++ (ds ++ (10 :: tail)))
      ∧ (∀ b ∈ ws, b = 32 ∨ b = 9) ∧ 0 < ws.length
      ∧ (∀ b ∈ ds, domainByte b = true) ∧ 0 < ds.length
      ∧ rest = tail
      ∧ d.name.idx = off + (11 + ws.length) ∧ d.name.len = ds.length := by
  unfold TextDomain.parse at h
  rcases h1 : tagged TEXTDOMAIN_TAG input with _ | rest0
  all_goals rw [h1] at h
  · cases h
  dsimp only at h
  rcases h2 : whitespace rest0 with _ | rest1
  all_goals rw [h2] at h
  · cases h
  dsimp only at h
  split at h
  · rename_i hpos
    rcases h3 : tagged [10] (domainScan rest1) with _ | rest2
    all_goals rw [h3] at h
    · cases h
    cases h
    obtain ⟨p, hp, hb⟩ := domainScan_decomp rest1
    obtain ⟨_, ws, hws, hws0, hwsb⟩ := whitespace_decomp h2
    have htag := tagged_some h1
    have h10 := tagged_some h3
    refine ⟨ws, p, rest, ?_, hwsb, hws0, hb, ?_, ?_, ?_, ?_⟩
    · rw [htag, hws, hp, h10]
      simp
    · have := congrArg List.length hp
      simp only [List.length_append] at this
      omega
    · rfl
    · have hlen0 : input.length = TEXTDOMAIN_TAG.length + rest0.length := by
        rw [htag]; simp
      have hlen1 : rest0.length = ws.length + rest1.length := by
        rw [hws]; simp
      have h11 : TEXTDOMAIN_TAG.length = 11 := rfl
      simp only []
      omega
    · have := congrArg List.length hp
      simp only [List.length_append] at this
      simp only []
      omega
  · cases h

theorem textdomainParse_suf {input : List Nat} {off : Nat} {rest : List Nat}
    {d : TextDomain} (h : TextDomain.parse input off = some (rest, d)) :
    SufOf rest input := by
  obtain ⟨ws, ds, tail, hdec, _, _, _, _, hrest, _⟩ := textdomainParse_decomp h
  subst hrest
  refine suf_of_append (p := TEXTDOMAIN_TAG ++ ws ++ ds ++ [10]) ?_
  rw [hdec]
  simp

theorem valuecomponentParse_suf {input : List Nat} {off : Nat} {rest : List Nat}
    {v : ValueComponent} (h : ValueComponent.parse input off = some (rest, v)) :
    SufOf rest input := by
  unfold ValueComponent.parse at h
  rcases h95 : tagged [95] input with _ | r95 <;> rw [h95] at h <;> dsimp only at h
  · rcases hw : WString.parse input off with _ | ⟨w1, s1⟩ <;> rw [hw] at h
    · rcases hr : RawString.parse input off with _ | ⟨r1, s2⟩ <;> rw [hr] at h
      · simp only [Bool.not_false, if_true] at h
        rcases ht : Text.parse input off with _ | ⟨t1, t⟩ <;> rw [ht] at h
        · cases h
        · cases h
          exact textParse_suf ht
      · cases h
        exact rawstringParse_suf hr
    · cases h
      exact wstringParse_suf hw
  · rcases hw : WString.parse r95 (off + 1) with _ | ⟨w1, s1⟩ <;> rw [hw] at h
    · rcases hr : RawString.parse r95 (off + 1) with _ | ⟨r1, s2⟩ <;> rw [hr] at h
      · simp only [Bool.not_true, if_false] at h
        cases h
      · cases h
        exact sufOf_trans (tagged_suf h95) (rawstringParse_suf hr)
    · cases h
      exact sufOf_trans (tagged_suf h95) (wstringParse_suf hw)

theorem valueParseLoop_suf {input : List Nat} {off : Nat} :
    ∀ (fuel : Nat) (cursor : List Nat) (acc : List (Option TextDomain × ValueComponent))
      (out : List Nat × List (Option TextDomain × ValueComponent)),
      SufOf cursor input → Value.parseLoop input off fuel cursor acc = some out →
      SufOf out.1 input := by
  intro fuel
  induction fuel with
  | zero => intro cursor acc out _ h; cases h
  | succ fuel ih =>
    intro cursor acc out hcur h
    rw [Value.parseLoop] at h
    rcases h43 : tagged [43] cursor with _ | rest
    all_goals rw [h43] at h
    · cases h
      exact hcur
    dsimp only at h
    have hrest : SufOf rest input := sufOf_trans hcur (tagged_suf h43)
    -- the optional-newline / optional-(mis-called)-textdomain step
    have hrd : ∀ r10 dres, (tagged [10] rest = some r10 ∧
          (TextDomain.parse input (input.length - r10.length + off) = dres)) ∨
          tagged [10] rest = none → True := fun _ _ _ => trivial
    rcases h10 : tagged [10] rest with _ | restNl
    all_goals rw [h10] at h
    all_goals dsimp only at h
    · -- no newline: rd = (rest, none)
      rcases hvc : ValueComponent.parse rest (input.length - rest.length + off)
        with _ | ⟨rest3, comp⟩
      all_goals rw [hvc] at h
      · cases h
      exact ih rest3 (acc ++ [(none, comp)]) out
        (sufOf_trans hrest (valuecomponentParse_suf hvc)) h
    · -- newline consumed: try the (buggy) textdomain parse of `input`
      have hrestNl : SufOf restNl input := sufOf_trans hrest (tagged_suf h10)
      rcases htd : TextDomain.parse input (input.length - restNl.length + off)
        with _ | ⟨rtd, dom⟩
      all_goals rw [htd] at h
      all_goals dsimp only at h
      · rcases hvc : ValueComponent.parse restNl (input.length - restNl.length + off)
          with _ | ⟨rest3, comp⟩
        all_goals rw [hvc] at h
        · cases h
        exact ih rest3 (acc ++ [(none, comp)]) out
          (sufOf_trans hrestNl (valuecomponentParse_suf hvc)) h
      · have hrtd : SufOf rtd input := textdomainParse_suf htd
        rcases hvc : ValueComponent.parse rtd (input.length - rtd.length + off)
          with _ | ⟨rest3, comp⟩
        all_goals rw [hvc] at h
        · cases h
        exact ih rest3 (acc ++ [(some dom, comp)]) out
          (sufOf_trans hrtd (valuecomponentParse_suf hvc)) h

theorem valueParse_suf {fuel : Nat} {input : List Nat} {off : Nat} {rest : List Nat}
    {v : Value} (h : Value.parse fuel input off = some (rest, v)) : SufOf rest input := by
  unfold Value.parse at h
  rcases hvc : ValueComponent.parse input off with _ | ⟨rest1, first⟩
  all_goals rw [hvc] at h
  · cases h
  dsimp only at h
  rcases hloop : Value.parseLoop input off fuel rest1 [] with _ | out
  all_goals rw [hloop] at h
  · cases h
  cases h
  exact valueParseLoop_suf fuel rest1 [] out (valuecomponentParse_suf hvc) hloop

theorem keysequenceParseLoop_suf {input : List Nat} {off : Nat} :
    ∀ (fuel : Nat) (cursor : List Nat) (acc : List Name) (out : List Nat × List Name),
      SufOf cursor input → KeySequence.parseLoop input off fuel cursor acc = some out →
      SufOf out.1 input := by
  intro fuel
  induction fuel with
  | zero => intro cursor acc out _ h; cases h
  | succ fuel ih =>
    intro cursor acc out hcur h
    rw [KeySequence.parseLoop] at h
    rcases h44 : tagged [44] cursor with _ | rest
    all_goals rw [h44] at h
    · cases h
      exact hcur
    dsimp only at h
    rcases hn : Name.parse rest (input.length - rest.length + off) with _ | ⟨r, n⟩
    all_goals rw [hn] at h
    · cases h
    exact ih r (acc ++ [n]) out
      (sufOf_trans (sufOf_trans hcur (tagged_suf h44)) (nameParse_suf hn)) h

theorem keysequenceParse_suf {fuel : Nat} {input : List Nat} {off : Nat} {rest : List Nat}
    {ks : KeySequence} (h : KeySequence.parse fuel input off = some (rest, ks)) :
    SufOf rest input := by
  unfold KeySequence.parse at h
  rcases hn : Name.parse input off with _ | ⟨rest1, first⟩
  all_goals rw [hn] at h
  · cases h
  dsimp only at h
  rcases hloop : KeySequence.parseLoop input off fuel rest1 [] with _ | out
  all_goals rw [hloop] at h
  · cases h
  cases h
  exact keysequenceParseLoop_suf fuel rest1 [] out (nameParse_suf hn) hloop

theorem attributeParse_suf {fuel : Nat} {input : List Nat} {off : Nat} {rest : List Nat}
    {a : Attribute} (h : Attribute.parse fuel input off = some (rest, a)) :
    SufOf rest input := by
  unfold Attribute.parse at h
  have main : ∀ (r0 : List Nat) (dom : Option TextDomain), SufOf r0 input →
      (match KeySequence.parse fuel r0 (input.length - r0.length + off) with
        | none => none
        | some (rest, ks) =>
          match tagged [61] rest with
          | none => none
          | some rest =>
            match Value.parse fuel rest (input.length - rest.length + off) with
            | none => none
            | some (rest, v) =>
              match tagged [10] rest with
              | none => none
              | some rest => some (rest, ⟨dom, ks, v⟩)) = some (rest, a) →
      SufOf rest input := by
    intro r0 dom hr0 hm
    rcases hks : KeySequence.parse fuel r0 (input.length - r0.length + off)
      with _ | ⟨r1, ks⟩
    all_goals rw [hks] at hm
    · cases hm
    dsimp only at hm
    rcases h61 : tagged [61] r1 with _ | r2
    all_goals rw [h61] at hm
    · cases hm
    dsimp only at hm
    rcases hv : Value.parse fuel r2 (input.length - r2.length + off) with _ | ⟨r3, v⟩
    all_goals rw [hv] at hm
    · cases hm
    dsimp only at hm
    rcases h10 : tagged [10] r3 with _ | r4
    all_goals rw [h10] at hm
    · cases hm
    cases hm
    exact sufOf_trans (sufOf_trans (sufOf_trans (sufOf_trans hr0
      (keysequenceParse_suf hks)) (tagged_suf h61)) (valueParse_suf hv)) (tagged_suf h10)
  rcases htd : TextDomain.parse input off with _ | ⟨r0, dom⟩
  all_goals rw [htd] at h
  all_goals try dsimp only at h
  · exact main input none (sufOf_refl input) h
  · exact main r0 (some dom) (textdomainParse_suf htd) h

/-- Consumption for the mutually recursive tag parsers, by one induction on
the fuel. -/
theorem tag_parsers_suf (fuel : Nat) :
    (∀ input off rest x, TagOrAttr.parse fuel input off = some (rest, x) → SufOf rest input)
    ∧ (∀ input off rest t, Tag.parse fuel input off = some (rest, t) → SufOf rest input)
    ∧ (∀ input off cursor acc out, Tag.childLoop fuel input off cursor acc = some out →
        SufOf out.1 cursor) := by
  induction fuel with
  | zero =>
    refine ⟨?_, ?_, ?_⟩
    · intro input off rest x h
      cases h
    · intro input off rest t h
      cases h
    · intro input off cursor acc out h
      cases h
  | succ fuel ih =>
    obtain ⟨ihx, iht, ihl⟩ := ih
    have hloop : ∀ input off cursor acc out,
        Tag.childLoop (fuel + 1) input off cursor acc = some out → SufOf out.1 cursor := by
      intro input off cursor acc out h
      rw [Tag.childLoop] at h
      try dsimp only at h
      rcases hx : TagOrAttr.parse fuel (skipNlTab cursor)
          (input.length - (skipNlTab cursor).length + off) with _ | ⟨r, x⟩
      all_goals rw [hx] at h
      · cases h
        exact skipNlTab_suf cursor
      · exact sufOf_trans (sufOf_trans (skipNlTab_suf cursor) (ihx _ _ _ _ hx))
          (ihl input off r (acc ++ [x]) out h)
    have htag : ∀ input off rest t,
        Tag.parse (fuel + 1) input off = some (rest, t) → SufOf rest input := by
      intro input off rest t h
      rw [Tag.parse] at h
      rcases h91 : tagged [91] input with _ | r1
      all_goals rw [h91] at h
      · cases h
      dsimp only at h
      rcases hn1 : Name.parse r1 (input.length - r1.length + off) with _ | ⟨r2, name⟩
      all_goals rw [hn1] at h
      · cases h
      dsimp only at h
      rcases h93 : tagged [93] r2 with _ | r3
      all_goals rw [h93] at h
      · cases h
      dsimp only at h
      rcases hcl : Tag.childLoop fuel input off (skipNlTab r3) [] with _ | ⟨cursor, content⟩
      all_goals rw [hcl] at h
      · cases h
      dsimp only at h
      rcases h914 : tagged [91, 47] cursor with _ | r4
      all_goals rw [h914] at h
      · cases h
      dsimp only at h
      rcases hn2 : Name.parse r4 (input.length - r4.length + off) with _ | ⟨r5, name2⟩
      all_goals rw [hn2] at h
      · cases h
      dsimp only at h
      split at h
      · cases h
      rcases h93b : tagged [93] r5 with _ | r6
      all_goals rw [h93b] at h
      · cases h
      cases h
      have c1 : SufOf r3 input :=
        sufOf_trans (sufOf_trans (tagged_suf h91) (nameParse_suf hn1)) (tagged_suf h93)
      have c2 : SufOf cursor input :=
        sufOf_trans (sufOf_trans c1 (skipNlTab_suf r3)) (ihl _ _ _ _ _ hcl)
      have c3 : SufOf r6 input :=
        sufOf_trans (sufOf_trans (sufOf_trans c2 (tagged_suf h914)) (nameParse_suf hn2))
          (tagged_suf h93b)
      exact sufOf_trans c3 (skipNlTab_suf r6)
    refine ⟨?_, htag, hloop⟩
    intro input off rest x h
    rw [TagOrAttr.parse] at h
    rcases ht : Tag.parse fuel input off with _ | ⟨r, t⟩
    all_goals rw [ht] at h
    · dsimp only at h
      rcases ha : Attribute.parse fuel input off with _ | ⟨r, a⟩
      all_goals rw [ha] at h
      · cases h
      cases h
      exact attributeParse_suf ha
    · cases h
      exact iht _ _ _ _ ht

/-- C9: every successful `Tag::parse` has byte-equal opening and closing
names.  The parse resolves both name `StringKey`s to windows of `input`
(via `idx - offset`), compares them byte-for-byte and fails on mismatch, so
success forces the consumed text to decompose as
`[` name `]` ... `[/` name `]` ... with the *same* name byte string `nm` in
both positions; `nm` is exactly the window of the stored tag name, it is
nonempty and consists of name bytes.  Consequently no parsed `Doc` (whose
tags all come from this function) contains a mismatched tag. -/
theorem C9_tag_balance (fuel : Nat) (input : List Nat) (off : Nat) (rest : List Nat)
    (t : Tag) (h : Tag.parse fuel input off = some (rest, t)) :
    ∃ nm mid tail,
      input = 91 :: (nm ++ (93 :: (mid ++ (91 :: 47 :: (nm ++ (93 :: tail))))))
        ∧ nm = (input.drop 1).take t.name.content.len
        ∧ 0 < nm.length ∧ ∀ b ∈ nm, nameByte b = true := by
  cases fuel with
  | zero => cases h
  | succ fuel =>
    rw [Tag.parse] at h
    rcases h91 : tagged [91] input with _ | r1
    all_goals rw [h91] at h
    · cases h
    dsimp only at h
    rcases hn1 : Name.parse r1 (input.length - r1.length + off) with _ | ⟨r2, name⟩
    all_goals rw [hn1] at h
    · cases h
    dsimp only at h
    rcases h93 : tagged [93] r2 with _ | r3
    all_goals rw [h93] at h
    · cases h
    dsimp only at h
    rcases hcl : Tag.childLoop fuel input off (skipNlTab r3) [] with _ | ⟨cursor, content⟩
    all_goals rw [hcl] at h
    · cases h
    dsimp only at h
    rcases h914 : tagged [91, 47] cursor with _ | r4
    all_goals rw [h914] at h
    · cases h
    dsimp only at h
    rcases hn2 : Name.parse r4 (input.length - r4.length + off) with _ | ⟨r5, name2⟩
    all_goals rw [hn2] at h
    · cases h
    dsimp only at h
    split at h
    · cases h
    rename_i hEq
    rcases h93b : tagged [93] r5 with _ | r6
    all_goals rw [h93b] at h
    · cases h
    cases h
    obtain ⟨hidx1, _, p1, hp1, hlen1, hpos1, hb1⟩ := nameParse_decomp hn1
    obtain ⟨hidx2, _, p2, hp2, hlen2, _, _⟩ := nameParse_decomp hn2
    have hinput : input = [91] ++ r1 := tagged_some h91
    have hr2' : r2 = [93] ++ r3 := tagged_some h93
    have hcursor : cursor = [91, 47] ++ r4 := tagged_some h914
    have hr5' : r5 = [93] ++ r6 := tagged_some h93b
    obtain ⟨c, hcdrop⟩ : SufOf cursor (skipNlTab r3) := (tag_parsers_suf fuel).2.2 _ _ _ _ _ hcl
    obtain ⟨sp, hsp, _⟩ := skipNlTab_decomp r3
    set s3 := skipNlTab r3 with hs3
    set mid2 := s3.take c with hmid2
    have hr3split : s3 = mid2 ++ cursor := by
      rw [hmid2, hcdrop]
      exact (List.take_append_drop c s3).symm
    have hbig : input = ([91] ++ p1 ++ [93] ++ sp ++ mid2 ++ [91, 47]) ++ r4 := by
      rw [hinput, hp1, hr2', hsp, hr3split, hcursor]
      simp [List.append_assoc]
    -- the two name windows computed by the equality check
    have h1len : input.length - r1.length = 1 := by
      rw [hinput]
      simp
    have hwin1 : (input.drop (name.content.idx - off)).take name.content.len = p1 := by
      rw [hidx1, h1len, Nat.add_sub_cancel, hinput]
      show r1.take name.content.len = p1
      rw [hp1, ← hlen1]
      exact List.take_left p1 r2
    have hA : input.length - r4.length = ([91] ++ p1 ++ [93] ++ sp ++ mid2 ++ [91, 47]).length := by
      rw [hbig]
      simp only [List.length_append]
      omega
    have hdrop4 : input.drop (([91] ++ p1 ++ [93] ++ sp ++ mid2 ++ [91, 47]).length) = r4 := by
      rw [hbig]
      exact List.drop_left _ _
    have hwin2 : (input.drop (name2.content.idx - off)).take name2.content.len = p2 := by
      rw [hidx2, Nat.add_sub_cancel, hA, hdrop4, hp2, ← hlen2]
      exact List.take_left p2 r5
    have hp12 : p1 = p2 := by
      have := not_ne_iff.mp hEq
      rw [hwin1, hwin2] at this
      exact this
    refine ⟨p1, sp ++ mid2, r6, ?_, ?_, hpos1, hb1⟩
    · rw [hbig, hp2, ← hp12, hr5']
      simp [List.append_assoc]
    · rw [show (Tag.mk name content).name = name from rfl, hinput]
      show p1 = r1.take name.content.len
      rw [hp1, ← hlen1]
      exact (List.take_left p1 r2).symm

/-- Witness for C9 on the concrete tag `[a][/a]`. -/
theorem C9_tag_balance_witness :
    ∃ nm mid tail,
      ([91, 97, 93, 91, 47, 97, 93] : List Nat)
          = 91 :: (nm ++ (93 :: (mid ++ (91 :: 47 :: (nm ++ (93 :: tail))))))
        ∧ nm = (([91, 97, 93, 91, 47, 97, 93] : List Nat).drop 1).take
            (Tag.mk ⟨⟨1, 1⟩⟩ []).name.content.len
        ∧ 0 < nm.length ∧ ∀ b ∈ nm, nameByte b = true :=
  C9_tag_balance 8 [91, 97, 93, 91, 47, 97, 93] 0 [] (Tag.mk ⟨⟨1, 1⟩⟩ []) rfl

/-! ### The position invariant and per-token key facts -/

theorem At.cons {buf : List Nat} {off x : Nat} {l : List Nat} (h : At buf off (x :: l)) :
    buf[off]? = some x ∧ At buf (off + 1) l := by
  obtain ⟨hle, hdrop⟩ := h
  have hlen : (buf.drop off).length = buf.length - off := by simp
  rw [← hdrop] at hlen
  have hoff1 : off + 1 ≤ buf.length := by
    simp only [List.length_cons] at hlen
    omega
  constructor
  · have : (buf.drop off)[0]? = buf[off + 0]? := List.getElem?_drop buf off 0
    rw [← hdrop] at this
    simpa using this.symm
  · refine ⟨hoff1, ?_⟩
    have h2 : buf.drop (off + 1) = l := by
      rw [← List.drop_drop 1 off buf, ← hdrop]
      rfl
    exact h2.symm

theorem At_pos {buf : List Nat} {off : Nat} {input slc : List Nat}
    (h : At buf off input) (hs : SufOf slc input) :
    At buf (input.length - slc.length + off) slc := by
  obtain ⟨hle, hdrop⟩ := h
  obtain ⟨n, hn⟩ := hs
  have hslen : slc.length = input.length - n := by rw [hn]; simp
  have hilen : input.length = buf.length - off := by rw [hdrop]; simp
  constructor
  · omega
  · by_cases hcase : n ≤ input.length
    · have hc : input.length - slc.length = n := by omega
      rw [hc, hn, hdrop, List.drop_drop]
      congr 1
      omega
    · have hnil : slc = [] := by
        rw [hn]
        exact List.drop_eq_nil_of_le (by omega)
      have h0 : slc.length = 0 := by rw [hnil]; rfl
      rw [hnil]
      simp only [List.length_nil]
      refine (List.drop_eq_nil_of_le ?_).symm
      omega

theorem keyWindow_at {buf : List Nat} {off : Nat} {input : List Nat} (h : At buf off input)
    (len : Nat) : keyWindow buf ⟨off, len⟩ = input.take len := by
  obtain ⟨_, hdrop⟩ := h
  rw [keyWindow, ← hdrop]

theorem nameParse_fact {buf input : List Nat} {off : Nat} {rest : List Nat} {n : Name}
    (hAt : At buf off input) (h : Name.parse input off = some (rest, n)) :
    KeyFact buf (.name, n.content) := by
  obtain ⟨hidx, _, p, hp, hlen, hpos, hb⟩ := nameParse_decomp h
  have hwin : keyWindow buf n.content = p := by
    have := keyWindow_at hAt n.content.len
    rw [show (⟨off, n.content.len⟩ : StringKey) = n.content from by rw [← hidx]] at this
    rw [this, hp, ← hlen, List.take_left]
  have hinlen : p.length ≤ input.length := by
    rw [hp]
    simp
  have hblen : input.length = buf.length - off := by rw [hAt.2]; simp
  refine ⟨?_, ?_, ?_⟩
  · rw [hidx]
    have := hAt.1
    omega
  · omega
  · rw [hwin]
    exact hb

theorem textParse_fact {buf input : List Nat} {off : Nat} {rest : List Nat} {t : Text}
    (hAt : At buf off input) (h : Text.parse input off = some (rest, t)) :
    KeyFact buf (.text, t.content) := by
  unfold Text.parse at h
  cases h
  obtain ⟨p, hp, hb⟩ := textScan_decomp input
  have hlen : input.length - (textScan input).length = p.length := by
    have := congrArg List.length hp
    simp only [List.length_append] at this
    omega
  have hwin : keyWindow buf ⟨off, input.length - (textScan input).length⟩ = p := by
    rw [keyWindow_at hAt, hlen, hp, List.take_left]
  have hinlen : p.length ≤ input.length := by
    rw [hp]
    simp
  have hblen : input.length = buf.length - off := by rw [hAt.2]; simp
  have h1 := hAt.1
  refine ⟨?_, ?_⟩
  · show off + (input.length - (textScan input).length) ≤ buf.length
    omega
  · intro b hbmem
    rw [hwin] at hbmem
    have := hb b hbmem
    exact ⟨fun h43 => this (Or.inl h43), fun h10 => this (Or.inr h10)⟩

theorem wstringParse_fact {buf input : List Nat} {off : Nat} {rest : List Nat} {s : WString}
    (hAt : At buf off input) (h : WString.parse input off = some (rest, s)) :
    KeyFact buf (.wstr, s.content) := by
  unfold WString.parse at h
  rcases h1 : tagged [34] input with _ | rest1
  all_goals rw [h1] at h
  · cases h
  dsimp only at h
  rcases h2 : tagged [34] (wstrScan rest1) with _ | rest2
  all_goals rw [h2] at h
  · cases h
  cases h
  have hin : input = [34] ++ rest1 := tagged_some h1
  have hx1 : At buf off (34 :: rest1) := by
    have hc := hAt
    rw [hin] at hc
    exact hc
  have hcons1 := At.cons hx1
  have hAtc := At_pos hcons1.2 (wstrScan_suf rest1)
  have hcur : wstrScan rest1 = [34] ++ rest := tagged_some h2
  have hx2 : At buf (rest1.length - (wstrScan rest1).length + (off + 1)) (34 :: rest) := by
    have hc := hAtc
    nth_rewrite 2 [hcur] at hc
    exact hc
  have hcons2 := At.cons hx2
  have h1len : input.length - rest1.length = 1 := by
    rw [hin]
    simp only [List.length_append, List.length_cons, List.length_nil]
    omega
  have hbound := hcons2.2.1
  refine ⟨?_, ?_, ?_, ?_⟩
  · show input.length - rest1.length + off + (rest1.length - (wstrScan rest1).length)
      ≤ buf.length
    omega
  · show 1 ≤ input.length - rest1.length + off
    omega
  · show buf[input.length - rest1.length + off - 1]? = some 34
    rw [show input.length - rest1.length + off - 1 = off from by omega]
    exact hcons1.1
  · show buf[input.length - rest1.length + off
      + (rest1.length - (wstrScan rest1).length)]? = some 34
    rw [show input.length - rest1.length + off + (rest1.length - (wstrScan rest1).length)
      = rest1.length - (wstrScan rest1).length + (off + 1) from by omega]
    exact hcons2.1

theorem rawstringParse_fact {buf input : List Nat} {off : Nat} {rest : List Nat}
    {r : RawString} (hAt : At buf off input)
    (h : RawString.parse input off = some (rest, r)) :
    KeyFact buf (.raw, r.content) := by
  unfold RawString.parse at h
  rcases h1 : tagged [60, 60] input with _ | rest1
  all_goals rw [h1] at h
  · cases h
  dsimp only at h
  rcases h2 : tagged [62, 62] (rawScan rest1) with _ | rest2
  all_goals rw [h2] at h
  · cases h
  cases h
  have hin : input = [60, 60] ++ rest1 := tagged_some h1
  have hx1 : At buf off (60 :: 60 :: rest1) := by
    have hc := hAt
    rw [hin] at hc
    exact hc
  have hcons1 := At.cons hx1
  have hcons1b := At.cons hcons1.2
  have hAtc := At_pos hcons1b.2 (rawScan_suf rest1)
  have hcur : rawScan rest1 = [62, 62] ++ rest := tagged_some h2
  have hx2 : At buf (rest1.length - (rawScan rest1).length + (off + 1 + 1))
      (62 :: 62 :: rest) := by
    have hc := hAtc
    nth_rewrite 2 [hcur] at hc
    exact hc
  have hcons2 := At.cons hx2
  have hcons2b := At.cons hcons2.2
  have h2len : input.length - rest1.length = 2 := by
    rw [hin]
    simp only [List.length_append, List.length_cons, List.length_nil]
    omega
  have hbound := hcons2b.2.1
  refine ⟨?_, ?_, ?_, ?_, ?_, ?_⟩
  · show input.length - rest1.length + off + (rest1.length - (rawScan rest1).length)
      ≤ buf.length
    omega
  · show 2 ≤ input.length - rest1.length + off
    omega
  · show buf[input.length - rest1.length + off - 2]? = some 60
    rw [show input.length - rest1.length + off - 2 = off from by omega]
    exact hcons1.1
  · show buf[input.length - rest1.length + off - 1]? = some 60
    rw [show input.length - rest1.length + off - 1 = off + 1 from by omega]
    exact hcons1b.1
  · show buf[input.length - rest1.length + off
      + (rest1.length - (rawScan rest1).length)]? = some 62
    rw [show input.length - rest1.length + off + (rest1.length - (rawScan rest1).length)
      = rest1.length - (rawScan rest1).length + (off + 1 + 1) from by omega]
    exact hcons2.1
  · show buf[input.length - rest1.length + off
      + (rest1.length - (rawScan rest1).length) + 1]? = some 62
    rw [show input.length - rest1.length + off + (rest1.length - (rawScan rest1).length) + 1
      = rest1.length - (rawScan rest1).length + (off + 1 + 1) + 1 from by omega]
    exact hcons2b.1

theorem textdomainParse_fact {buf input : List Nat} {off : Nat} {rest : List Nat}
    {d : TextDomain} (hAt : At buf off input)
    (h : TextDomain.parse input off = some (rest, d)) :
    KeyFact buf (.domain, d.name) := by
  obtain ⟨ws, ds, tail, hdec, _, _, hdb, hds0, _, hidx, hlen⟩ := textdomainParse_decomp h
  have hsuf : SufOf (ds ++ (10 :: tail)) input := by
    refine suf_of_append (p := TEXTDOMAIN_TAG ++ ws) ?_
    rw [hdec, List.append_assoc]
  have hAtd := At_pos hAt hsuf
  have hpos : input.length - (ds ++ (10 :: tail)).length = 11 + ws.length := by
    rw [hdec]
    simp only [List.length_append, List.length_cons]
    rw [show TEXTDOMAIN_TAG.length = 11 from rfl]
    omega
  rw [hpos] at hAtd
  have hwlen : (buf.drop (11 + ws.length + off)).length = buf.length - (11 + ws.length + off) := by
    simp
  rw [← hAtd.2] at hwlen
  have hwin : keyWindow buf d.name = ds := by
    rw [keyWindow, hlen, show d.name.idx = 11 + ws.length + off from by rw [hidx]; omega,
      ← hAtd.2]
    exact List.take_left ds (10 :: tail)
  refine ⟨?_, ?_, ?_⟩
  · have h1 := hAtd.1
    rw [hidx, hlen]
    simp only [List.length_append, List.length_cons] at hwlen
    omega
  · rw [hlen]
    exact hds0
  · rw [hwin]
    exact hdb

theorem valuecomponentParse_fact {buf input : List Nat} {off : Nat} {rest : List Nat}
    {v : ValueComponent} (hAt : At buf off input)
    (h : ValueComponent.parse input off = some (rest, v)) :
    ∀ kk ∈ v.keysK, KeyFact buf kk := by
  unfold ValueComponent.parse at h
  rcases h95 : tagged [95] input with _ | r95 <;> rw [h95] at h <;> dsimp only at h
  · rcases hw : WString.parse input off with _ | ⟨w1, s1⟩ <;> rw [hw] at h
    · rcases hr : RawString.parse input off with _ | ⟨r1, s2⟩ <;> rw [hr] at h
      · simp only [Bool.not_false, if_true] at h
        rcases ht : Text.parse input off with _ | ⟨t1, t⟩ <;> rw [ht] at h
        · cases h
        · cases h
          intro kk hkk
          simp only [ValueComponent.keysK, List.mem_singleton] at hkk
          subst hkk
          exact textParse_fact hAt ht
      · cases h
        intro kk hkk
        simp only [ValueComponent.keysK, List.mem_singleton] at hkk
        subst hkk
        exact rawstringParse_fact hAt hr
    · cases h
      intro kk hkk
      simp only [ValueComponent.keysK, List.mem_singleton] at hkk
      subst hkk
      exact wstringParse_fact hAt hw
  · have hin : input = [95] ++ r95 := tagged_some h95
    have hx : At buf off (95 :: r95) := by
      have hc := hAt
      rw [hin] at hc
      exact hc
    have hAt1 : At buf (off + 1) r95 := (At.cons hx).2
    rcases hw : WString.parse r95 (off + 1) with _ | ⟨w1, s1⟩ <;> rw [hw] at h
    · rcases hr : RawString.parse r95 (off + 1) with _ | ⟨r1, s2⟩ <;> rw [hr] at h
      · simp only [Bool.not_true, if_false] at h
        cases h
      · cases h
        intro kk hkk
        simp only [ValueComponent.keysK, List.mem_singleton] at hkk
        subst hkk
        exact rawstringParse_fact hAt1 hr
    · cases h
      intro kk hkk
      simp only [ValueComponent.keysK, List.mem_singleton] at hkk
      subst hkk
      exact wstringParse_fact hAt1 hw

/-! ### Facts about `Value::parse`, including the misdirected textdomain call -/

theorem textScan_append {p q : List Nat} (hp : ∀ b ∈ p, ¬(b = 43 ∨ b = 10)) :
    textScan (p ++ q) = textScan q := by
  induction p with
  | nil => rfl
  | cons x xs ih =>
    have hx := hp x (by simp)
    simp only [List.cons_append, textScan, if_neg hx]
    exact ih (fun b hb => hp b (by simp [hb]))

theorem textScan_stop {q : List Nat} : textScan (10 :: q) = 10 :: q := by
  simp [textScan]

theorem tdtag_not_stop : ∀ b ∈ TEXTDOMAIN_TAG, ¬(b = 43 ∨ b = 10) := by decide

theorem domainByte_not_stop {b : Nat} (h : domainByte b = true) : ¬(b = 43 ∨ b = 10) := by
  simp only [domainByte, nameByte, Bool.or_eq_true, Bool.and_eq_true,
    decide_eq_true_eq] at h
  omega

theorem valueParseLoop_fact {buf input : List Nat} {off : Nat} (hAt : At buf off input)
    (hB : ∀ o, TextDomain.parse input o = none) :
    ∀ fuel cursor acc out, SufOf cursor input →
      (∀ kk ∈ (acc.map (fun pc => optDomainKeys pc.1 ++ pc.2.keysK)).flatten,
        KeyFact buf kk) →
      Value.parseLoop input off fuel cursor acc = some out →
      ∀ kk ∈ (out.2.map (fun pc => optDomainKeys pc.1 ++ pc.2.keysK)).flatten,
        KeyFact buf kk := by
  intro fuel
  induction fuel with
  | zero =>
    intro cursor acc out _ _ h
    cases h
  | succ fuel ih =>
    intro cursor acc out hsuf hacc h
    rw [Value.parseLoop] at h
    rcases h43 : tagged [43] cursor with _ | rest <;> rw [h43] at h
    · cases h
      exact hacc
    dsimp only at h
    have hrsuf : SufOf rest input := sufOf_trans hsuf (tagged_suf h43)
    rcases h10 : tagged [10] rest with _ | restNl <;> rw [h10] at h <;> dsimp only at h
    · rcases hvc : ValueComponent.parse rest (input.length - rest.length + off)
        with _ | ⟨r3, comp⟩ <;> rw [hvc] at h
      · cases h
      refine ih r3 (acc ++ [(none, comp)]) out
        (sufOf_trans hrsuf (valuecomponentParse_suf hvc)) ?_ h
      intro kk hkk
      rw [List.map_append, List.flatten_append] at hkk
      rcases List.mem_append.mp hkk with hk | hk
      · exact hacc kk hk
      · simp only [List.map_cons, List.map_nil, List.flatten_cons, List.flatten_nil,
          List.append_nil, optDomainKeys, List.nil_append] at hk
        exact valuecomponentParse_fact (At_pos hAt hrsuf) hvc kk hk
    · rw [hB (input.length - restNl.length + off)] at h
      dsimp only at h
      have hnlsuf : SufOf restNl input := sufOf_trans hrsuf (tagged_suf h10)
      rcases hvc : ValueComponent.parse restNl (input.length - restNl.length + off)
        with _ | ⟨r3, comp⟩ <;> rw [hvc] at h
      · cases h
      refine ih r3 (acc ++ [(none, comp)]) out
        (sufOf_trans hnlsuf (valuecomponentParse_suf hvc)) ?_ h
      intro kk hkk
      rw [List.map_append, List.flatten_append] at hkk
      rcases List.mem_append.mp hkk with hk | hk
      · exact hacc kk hk
      · simp only [List.map_cons, List.map_nil, List.flatten_cons, List.flatten_nil,
          List.append_nil, optDomainKeys, List.nil_append] at hk
        exact valuecomponentParse_fact (At_pos hAt hnlsuf) hvc kk hk

theorem valueParse_fact {buf input : List Nat} {fuel off : Nat} {rest : List Nat}
    {v : Value} (hAt : At buf off input)
    (h : Value.parse fuel input off = some (rest, v)) :
    ∀ kk ∈ Value.keysK v, KeyFact buf kk := by
  by_cases hA : ∃ o r, TextDomain.parse input o = some r
  · -- the value text itself begins with a full textdomain annotation; then the
    -- first component is a Text stopping at the newline and the continuation
    -- loop exits at once, so the mis-called textdomain parse never runs.
    obtain ⟨o, ⟨rr, dd⟩, hsome⟩ := hA
    obtain ⟨ws, ds, tail, hdec, hwsb, _, hdb, _, _, _, _⟩ := textdomainParse_decomp hsome
    have htake1 : input.take 1 = [35] := by rw [hdec]; rfl
    have htake2 : input.take 2 = [35, 116] := by rw [hdec]; rfl
    have h95 : tagged [95] input = none := by simp [tagged, htake1]
    have h34 : tagged [34] input = none := by simp [tagged, htake1]
    have h60 : tagged [60, 60] input = none := by simp [tagged, htake2]
    have hts : textScan input = 10 :: tail := by
      rw [hdec,
        show TEXTDOMAIN_TAG ++ (ws ++ (ds ++ (10 :: tail)))
          = (TEXTDOMAIN_TAG ++ ws ++ ds) ++ (10 :: tail) from by
            simp [List.append_assoc]]
      rw [textScan_append, textScan_stop]
      intro b hb
      rcases List.mem_append.mp hb with hb2 | hb2
      · rcases List.mem_append.mp hb2 with hb3 | hb3
        · exact tdtag_not_stop b hb3
        · have := hwsb b hb3
          omega
      · exact domainByte_not_stop (hdb b hb2)
    have hwsp : WString.parse input off = none := by
      unfold WString.parse
      rw [h34]
    have hrsp : RawString.parse input off = none := by
      unfold RawString.parse
      rw [h60]
    have hvc : ValueComponent.parse input off
        = some (10 :: tail, .text ⟨⟨off, input.length - (textScan input).length⟩⟩) := by
      unfold ValueComponent.parse
      rw [h95]
      dsimp only
      rw [hwsp, hrsp]
      dsimp only [Bool.not_false, if_true]
      unfold Text.parse
      rw [hts]
      simp
    unfold Value.parse at h
    rw [hvc] at h
    dsimp only at h
    cases fuel with
    | zero =>
      rw [Value.parseLoop] at h
      cases h
    | succ fuel =>
      rw [Value.parseLoop] at h
      have h43 : tagged [43] (10 :: tail) = none := by simp [tagged]
      rw [h43] at h
      cases h
      intro kk hkk
      simp only [Value.keysK, ValueComponent.keysK, List.map_nil, List.flatten_nil,
        List.append_nil, List.mem_singleton] at hkk
      subst hkk
      have ht : Text.parse input off
          = some (textScan input, ⟨⟨off, input.length - (textScan input).length⟩⟩) := rfl
      exact textParse_fact hAt ht
  · have hB : ∀ o, TextDomain.parse input o = none := by
      intro o
      rcases htd : TextDomain.parse input o with _ | rr
      · rfl
      · exact absurd ⟨o, rr, htd⟩ hA
    unfold Value.parse at h
    rcases hvc : ValueComponent.parse input off with _ | ⟨rest1, first⟩ <;> rw [hvc] at h
    · cases h
    dsimp only at h
    rcases hloop : Value.parseLoop input off fuel rest1 [] with _ | out <;> rw [hloop] at h
    · cases h
    cases h
    intro kk hkk
    rw [Value.keysK] at hkk
    rcases List.mem_append.mp hkk with hk | hk
    · exact valuecomponentParse_fact hAt hvc kk hk
    · exact valueParseLoop_fact hAt hB fuel rest1 [] out
        (valuecomponentParse_suf hvc) (by simp) hloop kk hk

theorem keysequenceParseLoop_fact {buf input : List Nat} {off : Nat} (hAt : At buf off input) :
    ∀ fuel cursor acc out, SufOf cursor input →
      (∀ n ∈ acc, KeyFact buf (.name, Name.content n)) →
      KeySequence.parseLoop input off fuel cursor acc = some out →
      ∀ n ∈ out.2, KeyFact buf (.name, Name.content n) := by
  intro fuel
  induction fuel with
  | zero =>
    intro cursor acc out _ _ h
    cases h
  | succ fuel ih =>
    intro cursor acc out hsuf hacc h
    rw [KeySequence.parseLoop] at h
    rcases h44 : tagged [44] cursor with _ | rest <;> rw [h44] at h
    · cases h
      exact hacc
    dsimp only at h
    have hrsuf : SufOf rest input := sufOf_trans hsuf (tagged_suf h44)
    rcases hn : Name.parse rest (input.length - rest.length + off) with _ | ⟨r, n⟩
      <;> rw [hn] at h
    · cases h
    refine ih r (acc ++ [n]) out (sufOf_trans hrsuf (nameParse_suf hn)) ?_ h
    intro m hm
    rcases List.mem_append.mp hm with hk | hk
    · exact hacc m hk
    · rw [List.mem_singleton.mp hk]
      exact nameParse_fact (At_pos hAt hrsuf) hn

theorem keysequenceParse_fact {buf input : List Nat} {fuel off : Nat} {rest : List Nat}
    {ks : KeySequence} (hAt : At buf off input)
    (h : KeySequence.parse fuel input off = some (rest, ks)) :
    ∀ kk ∈ ks.keysK, KeyFact buf kk := by
  unfold KeySequence.parse at h
  rcases hn : Name.parse input off with _ | ⟨rest1, first⟩ <;> rw [hn] at h
  · cases h
  dsimp only at h
  rcases hloop : KeySequence.parseLoop input off fuel rest1 [] with _ | out
    <;> rw [hloop] at h
  · cases h
  cases h
  intro kk hkk
  rw [KeySequence.keysK] at hkk
  rcases List.mem_cons.mp hkk with hk | hk
  · rw [hk]
    exact nameParse_fact hAt hn
  · obtain ⟨m, hm, rfl⟩ := List.mem_map.mp hk
    exact keysequenceParseLoop_fact hAt fuel rest1 [] out (nameParse_suf hn)
      (by simp) hloop m hm

theorem attributeParse_fact {buf input : List Nat} {fuel off : Nat} {rest : List Nat}
    {a : Attribute} (hAt : At buf off input)
    (h : Attribute.parse fuel input off = some (rest, a)) :
    ∀ kk ∈ a.keysK, KeyFact buf kk := by
  unfold Attribute.parse at h
  have main : ∀ (r0 : List Nat) (dom : Option TextDomain), SufOf r0 input →
      (∀ kk ∈ optDomainKeys dom, KeyFact buf kk) →
      (match KeySequence.parse fuel r0 (input.length - r0.length + off) with
        | none => none
        | some (rest, ks) =>
          match tagged [61] rest with
          | none => none
          | some rest =>
            match Value.parse fuel rest (input.length - rest.length + off) with
            | none => none
            | some (rest, v) =>
              match tagged [10] rest with
              | none => none
              | some rest => some (rest, ⟨dom, ks, v⟩)) = some (rest, a) →
      ∀ kk ∈ a.keysK, KeyFact buf kk := by
    intro r0 dom hr0 hdom hm
    rcases hks : KeySequence.parse fuel r0 (input.length - r0.length + off)
      with _ | ⟨r1, ks⟩
    all_goals rw [hks] at hm
    · cases hm
    dsimp only at hm
    rcases h61 : tagged [61] r1 with _ | r2
    all_goals rw [h61] at hm
    · cases hm
    dsimp only at hm
    have hr2suf : SufOf r2 input :=
      sufOf_trans (sufOf_trans hr0 (keysequenceParse_suf hks)) (tagged_suf h61)
    rcases hv : Value.parse fuel r2 (input.length - r2.length + off) with _ | ⟨r3, v⟩
    all_goals rw [hv] at hm
    · cases hm
    dsimp only at hm
    rcases h10 : tagged [10] r3 with _ | r4
    all_goals rw [h10] at hm
    · cases hm
    cases hm
    intro kk hkk
    rw [Attribute.keysK] at hkk
    rcases List.mem_append.mp hkk with hk | hk
    · rcases List.mem_append.mp hk with hk2 | hk2
      · exact hdom kk hk2
      · exact keysequenceParse_fact (At_pos hAt hr0) hks kk hk2
    · exact valueParse_fact (At_pos hAt hr2suf) hv kk hk
  rcases htd : TextDomain.parse input off with _ | ⟨r0, dom⟩
  all_goals rw [htd] at h
  all_goals try dsimp only at h
  · exact main input none (sufOf_refl input) (by simp [optDomainKeys]) h
  · refine main r0 (some dom) (textdomainParse_suf htd) ?_ h
    intro kk hkk
    simp only [optDomainKeys, List.mem_singleton] at hkk
    rw [hkk]
    exact textdomainParse_fact hAt htd

theorem keysKList_append (l1 l2 : List TagOrAttr) :
    keysKList (l1 ++ l2) = keysKList l1 ++ keysKList l2 := by
  induction l1 with
  | nil => rfl
  | cons x xs ih =>
    rw [List.cons_append, keysKList, keysKList, ih, List.append_assoc]

/-- Key facts for the mutually recursive tag parsers, by one induction on
the fuel: all keys stored by a successful parse at a buffer position are
faithful to the buffer. -/
theorem tag_parsers_fact (buf : List Nat) : ∀ fuel : Nat,
    (∀ input off rest x, At buf off input → TagOrAttr.parse fuel input off = some (rest, x) →
      ∀ kk ∈ TagOrAttr.keysK x, KeyFact buf kk)
    ∧ (∀ input off rest t, At buf off input → Tag.parse fuel input off = some (rest, t) →
      ∀ kk ∈ Tag.keysK t, KeyFact buf kk)
    ∧ (∀ input off cursor acc out, At buf off input → SufOf cursor input →
      (∀ kk ∈ keysKList acc, KeyFact buf kk) →
      Tag.childLoop fuel input off cursor acc = some out →
      ∀ kk ∈ keysKList out.2, KeyFact buf kk) := by
  intro fuel
  induction fuel with
  | zero =>
    refine ⟨?_, ?_, ?_⟩
    · intro input off rest x _ h
      cases h
    · intro input off rest t _ h
      cases h
    · intro input off cursor acc out _ _ _ h
      cases h
  | succ fuel ih =>
    obtain ⟨ihx, iht, ihl⟩ := ih
    have hloop : ∀ input off cursor acc out, At buf off input → SufOf cursor input →
        (∀ kk ∈ keysKList acc, KeyFact buf kk) →
        Tag.childLoop (fuel + 1) input off cursor acc = some out →
        ∀ kk ∈ keysKList out.2, KeyFact buf kk := by
      intro input off cursor acc out hAt hsuf hacc h
      rw [Tag.childLoop] at h
      try dsimp only at h
      have hsk : SufOf (skipNlTab cursor) input := sufOf_trans hsuf (skipNlTab_suf cursor)
      rcases hx : TagOrAttr.parse fuel (skipNlTab cursor)
          (input.length - (skipNlTab cursor).length + off) with _ | ⟨r, x⟩
      all_goals rw [hx] at h
      · cases h
        exact hacc
      refine ihl input off r (acc ++ [x]) out hAt
        (sufOf_trans hsk ((tag_parsers_suf fuel).1 _ _ _ _ hx)) ?_ h
      intro kk hkk
      rw [keysKList_append] at hkk
      rcases List.mem_append.mp hkk with hk | hk
      · exact hacc kk hk
      · rw [show keysKList [x] = TagOrAttr.keysK x ++ [] from rfl, List.append_nil] at hk
        exact ihx _ _ _ _ (At_pos hAt hsk) hx kk hk
    have htag : ∀ input off rest t, At buf off input →
        Tag.parse (fuel + 1) input off = some (rest, t) →
        ∀ kk ∈ Tag.keysK t, KeyFact buf kk := by
      intro input off rest t hAt h
      rw [Tag.parse] at h
      rcases h91 : tagged [91] input with _ | r1
      all_goals rw [h91] at h
      · cases h
      dsimp only at h
      rcases hn1 : Name.parse r1 (input.length - r1.length + off) with _ | ⟨r2, name⟩
      all_goals rw [hn1] at h
      · cases h
      dsimp only at h
      rcases h93 : tagged [93] r2 with _ | r3
      all_goals rw [h93] at h
      · cases h
      dsimp only at h
      rcases hcl : Tag.childLoop fuel input off (skipNlTab r3) [] with _ | ⟨cursor, content⟩
      all_goals rw [hcl] at h
      · cases h
      dsimp only at h
      rcases h914 : tagged [91, 47] cursor with _ | r4
      all_goals rw [h914] at h
      · cases h
      dsimp only at h
      rcases hn2 : Name.parse r4 (input.length - r4.length + off) with _ | ⟨r5, name2⟩
      all_goals rw [hn2] at h
      · cases h
      dsimp only at h
      split at h
      · cases h
      rcases h93b : tagged [93] r5 with _ | r6
      all_goals rw [h93b] at h
      · cases h
      cases h
      have hr1 : SufOf r1 input := tagged_suf h91
      have hr3 : SufOf (skipNlTab r3) input :=
        sufOf_trans (sufOf_trans (sufOf_trans hr1 (nameParse_suf hn1)) (tagged_suf h93))
          (skipNlTab_suf r3)
      intro kk hkk
      rw [Tag.keysK] at hkk
      rcases List.mem_cons.mp hkk with hk | hk
      · rw [hk]
        exact nameParse_fact (At_pos hAt hr1) hn1
      · exact ihl input off (skipNlTab r3) [] (cursor, content) hAt hr3 (by simp [keysKList])
          hcl kk hk
    refine ⟨?_, htag, hloop⟩
    intro input off rest x hAt h
    rw [TagOrAttr.parse] at h
    rcases ht : Tag.parse fuel input off with _ | ⟨r, t⟩
    all_goals rw [ht] at h
    · dsimp only at h
      rcases ha : Attribute.parse fuel input off with _ | ⟨r, a⟩
      all_goals rw [ha] at h
      · cases h
      cases h
      intro kk hkk
      rw [show TagOrAttr.keysK (.attr a) = a.keysK from rfl] at hkk
      exact attributeParse_fact hAt ha kk hkk
    · cases h
      intro kk hkk
      rw [show TagOrAttr.keysK (.tag t) = Tag.keysK t from rfl] at hkk
      exact iht _ _ _ _ hAt ht kk hkk

theorem docLoop_fact (buf : List Nat) :
    ∀ fuel cursor acc out, SufOf cursor buf →
      (∀ kk ∈ keysKList acc, KeyFact buf kk) →
      docLoop buf fuel cursor acc = out →
      ∀ kk ∈ keysKList out.2, KeyFact buf kk := by
  intro fuel
  induction fuel with
  | zero =>
    intro cursor acc out _ hacc h
    cases h
    exact hacc
  | succ fuel ih =>
    intro cursor acc out hsuf hacc h
    rw [docLoop] at h
    have hAt0 : At buf 0 buf := ⟨Nat.zero_le _, by simp⟩
    have hAtc : At buf (buf.length - cursor.length) cursor := by
      have := At_pos hAt0 hsuf
      simpa using this
    rcases hx : TagOrAttr.parse fuel cursor (buf.length - cursor.length) with _ | ⟨r, x⟩
    all_goals rw [hx] at h
    · cases h
      exact hacc
    refine ih r (acc ++ [x]) out (sufOf_trans hsuf ((tag_parsers_suf fuel).1 _ _ _ _ hx)) ?_ h
    intro kk hkk
    rw [keysKList_append] at hkk
    rcases List.mem_append.mp hkk with hk | hk
    · exact hacc kk hk
    · rw [show keysKList [x] = TagOrAttr.keysK x ++ [] from rfl, List.append_nil] at hk
      exact (tag_parsers_fact buf fuel).1 _ _ _ _ hAtc hx kk hk

/-- C8: `StringKey` fidelity.  For every labelled key stored anywhere in a
parsed `Doc` — tag and attribute names, text windows, quoted-string
interiors, raw-string interiors, textdomain names, at every nesting depth —
the key addresses the document buffer in bounds (`idx + len ≤ length`) and
`buffer[idx .. idx+len]` is exactly the window its production matched there:
name/domain windows are nonempty runs of the respective character classes,
text windows contain no `+`/newline byte, and string/raw-string interiors
sit immediately between their enclosing delimiter bytes in the buffer
(`KeyFact` spells this out per token kind).  The buffer kept in the `Doc`
is the parsed one. -/
theorem C8_stringkey_fidelity (buf : List Nat) (d : Doc)
    (h : DocProcessor.parse buf = some d) :
    d.text = buf ∧ ∀ kk ∈ Doc.keysK d, KeyFact buf kk := by
  unfold DocProcessor.parse at h
  dsimp only at h
  split at h
  · cases h
    refine ⟨rfl, ?_⟩
    intro kk hkk
    rw [Doc.keysK] at hkk
    exact docLoop_fact buf (buf.length + 1) buf [] _ (sufOf_refl buf)
      (by simp [keysKList]) rfl kk hkk
  · cases h

/-- Witness for C8 on the document `lol="hello"` followed by a newline: the
quoted-string interior key `{idx 5, len 5}` (the window `hello`) is faithful
to the buffer. -/
theorem C8_stringkey_fidelity_witness :
    KeyFact [108, 111, 108, 61, 34, 104, 101, 108, 108, 111, 34, 10]
      (.wstr, ⟨5, 5⟩) :=
  (C8_stringkey_fidelity [108, 111, 108, 61, 34, 104, 101, 108, 108, 111, 34, 10]
      ⟨[.attr ⟨none, ⟨⟨⟨0, 3⟩⟩, []⟩, ⟨.str ⟨⟨5, 5⟩⟩, []⟩⟩],
        [108, 111, 108, 61, 34, 104, 101, 108, 108, 111, 34, 10]⟩ rfl).2
    (.wstr, ⟨5, 5⟩) (by decide)

end WML

end Wesmaild
